import Mathlib

set_option autoImplicit false
set_option maxRecDepth 40000

/-!
Shallow embedding of the efa bytecode virtual machine, its
content-addressed code store, the link/resolve pass and the relevant
assembler fragments, together with proofs about the frozen claims.

The embedding follows the Rust sources of the repository:
  * `efa-core/src/bytecode.rs`  — instruction set,
  * `efa-core/src/vm/mod.rs`    — values, code objects, frames, `Vm::exec`,
  * `efa-core/src/db/mod.rs`    — the sqlite-backed store,
  * `efa-core/src/solver/resolve_dyn.rs` — the link/resolve pass,
  * `efa-core/src/asm/parser.rs` — the assembler line decoder.

Rust `bail!` (a surfaced `anyhow::Result` error) is modelled as a `.err`
outcome; a Rust panic (slice indexing out of bounds, `Option::unwrap` on
`None`, arithmetic overflow in a debug build, `panic!` in an operator
impl) is modelled as a distinct `.crash` outcome, because a panic tears
down the host instead of surfacing an error value to the caller.

The floating point variants `Value::F32`/`Value::F64` are not modelled:
no claim mentions them, the assembler cannot produce them, and IEEE
arithmetic is outside the scope of this embedding.
-/

namespace Efa

/-- `HASH_SIZE = 16`; a `Hash` is `[u8; 16]`, modelled as a list of bytes. -/
def HASH_SIZE : Nat := 16

/-- `const STACK_CAP: usize = 256` from `efa-core/src/vm/mod.rs`: the cap
recorded in `Vm::data_stack_cap` and `Vm::call_stack_cap` by every `Vm`
constructor.  No code reads either field. -/
def STACK_CAP : Nat := 256

/-- `type Hash = [u8; HASH_SIZE]` from `efa-core/src/lib.rs`, as a byte list. -/
abbrev Hash := List Nat

/-- The twelve integer variants of `Value` (`I8` … `Usize`), collapsed into a
kind tag so that the per-width `match` arms of the Rust operator impls can be
written once.  `Isize`/`Usize` are modelled at 64 bits. -/
inductive IntKind where
  | i8 | u8 | i16 | u16 | i32 | u32 | i64 | u64 | i128 | u128 | isize | usize
  deriving DecidableEq, Repr

/-- Bit width of an integer kind. -/
def IntKind.width : IntKind → Nat
  | .i8 => 8 | .u8 => 8 | .i16 => 16 | .u16 => 16
  | .i32 => 32 | .u32 => 32 | .i64 => 64 | .u64 => 64
  | .i128 => 128 | .u128 => 128 | .isize => 64 | .usize => 64

/-- Whether the kind is signed. -/
def IntKind.signed : IntKind → Bool
  | .i8 | .i16 | .i32 | .i64 | .i128 | .isize => true
  | _ => false

/-- Smallest representable value of a kind. -/
def IntKind.minVal (k : IntKind) : Int :=
  if k.signed then -(2 ^ (k.width - 1)) else 0

/-- Largest representable value of a kind. -/
def IntKind.maxVal (k : IntKind) : Int :=
  if k.signed then 2 ^ (k.width - 1) - 1 else 2 ^ k.width - 1

/-- `r` is representable in kind `k`. -/
def IntKind.inRange (k : IntKind) (r : Int) : Prop :=
  k.minVal ≤ r ∧ r ≤ k.maxVal

instance (k : IntKind) (r : Int) : Decidable (k.inRange r) := by
  unfold IntKind.inRange; infer_instance

/-- `enum Value` from `efa-core/src/vm/mod.rs` (floats omitted, integer
variants collapsed into `intV kind value`). -/
inductive Value where
  | intV (k : IntKind) (v : Int)
  | charV (c : Char)
  | boolV (b : Bool)
  | hashV (h : Hash)
  | strV (s : String)
  | containerV (vs : List Value)
  deriving Repr

/-- `Value::int` — the `I32` convenience constructor. -/
def Value.int (i : Int) : Value := .intV .i32 i

/-- `enum BinOp` from `efa-core/src/bytecode.rs`. -/
inductive BinOp where
  | add | mul | div | sub | mod_ | shl | shr | and | or | eq
  deriving DecidableEq, Repr

/-- `enum UnaryOp` from `efa-core/src/bytecode.rs`. -/
inductive UnaryOp where
  | not | neg
  deriving DecidableEq, Repr

/-- `enum Instr` from `efa-core/src/bytecode.rs`.  The container
instructions (`ContMakeS` …) are carried but are no-ops in the VM: the
corresponding match arms in `Vm::exec` have empty bodies. -/
inductive Instr where
  | loadArg (i : Nat)
  | loadLocal (i : Nat)
  | loadLit (i : Nat)
  | storeLocal (i : Nat)
  | pop
  | dup
  | loadFunc (h : Hash)
  | loadDyn (name : String)
  | call
  | callSelf
  | ret
  | retVal
  | jump (l : Nat)
  | jumpT (l : Nat)
  | jumpF (l : Nat)
  | jumpEq (l : Nat)
  | jumpNe (l : Nat)
  | jumpGt (l : Nat)
  | jumpGe (l : Nat)
  | jumpLt (l : Nat)
  | jumpLe (l : Nat)
  | binOp (op : BinOp)
  | unaryOp (op : UnaryOp)
  | contMakeS (n : Nat) | contMake
  | contInsertS (i : Nat) | contInsert
  | contGetS (i : Nat) | contGet
  | contSetS (i : Nat) | contSet
  | contHead | contTail | contExt | contLen
  | dbg
  | nop
  deriving Repr

/-- `struct CodeObject` from `efa-core/src/vm/mod.rs`. -/
structure CodeObject where
  litpool : List Value
  argcount : Nat
  localnames : List String
  labels : List Nat
  code : List Instr
  deriving Repr

/-- `struct StackFrame` from `efa-core/src/vm/mod.rs`.  The operand stack is
a list whose head is the top; `locals` is the `HashMap<String, Value>`
modelled as an association list (insert replaces, lookup finds). -/
structure StackFrame where
  code_obj : CodeObject
  stack : List Value
  locals : List (String × Value)
  instruction : Nat
  deriving Repr

end Efa

namespace Efa

/-- Structural equality of values: the derived `PartialEq` on `Value`
(cross-variant comparisons are `false`, containers compare element-wise). -/
def Value.beq : Value → Value → Bool
  | .intV k x, .intV k' y => k = k' ∧ x = y
  | .charV c, .charV c' => c = c'
  | .boolV b, .boolV b' => b = b'
  | .hashV h, .hashV h' => h = h'
  | .strV s, .strV s' => s = s'
  | .containerV vs, .containerV vs' => beqList vs vs'
  | _, _ => false
where
  /-- Element-wise equality of two value lists. -/
  beqList : List Value → List Value → Bool
  | [], [] => true
  | v :: vs, w :: ws => v.beq w && beqList vs ws
  | _, _ => false

/-- `PartialOrd for Value` (`vm/mod.rs`): defined for same-variant
integers, char, bool, hash and string; every other pairing hits the
`panic!("cannot compare …")` arm, modelled as `none`. -/
def Value.partialCmp : Value → Value → Option Ordering
  | .intV k x, .intV k' y => if k = k' then some (compare x y) else none
  | .charV c, .charV c' => some (compare c c')
  | .boolV b, .boolV b' => some (compare b b')
  | .hashV h, .hashV h' => some (compare h h')
  | .strV s, .strV s' => some (compare s s')
  | _, _ => none

/-- Arithmetic outcome: a value, or the message of the Rust panic the
operation would raise (type-mismatch `panic!`, or a debug-build overflow /
division-by-zero abort). -/
abbrev ArithRes := Except String Value

/-- Reduce `r` modulo `2^width` into the representable range of `k`
(two's complement for signed kinds).  Rust's `<<` discards high bits. -/
def IntKind.wrap (k : IntKind) (r : Int) : Int :=
  let m := r % (2 ^ k.width : Int)
  if k.signed ∧ m ≥ 2 ^ (k.width - 1) then m - 2 ^ k.width else m

/-- Checked same-kind integer op: exact result, then a debug-build
overflow abort if it leaves the representable range. -/
def intOpChecked (k k' : IntKind) (x y : Int) (f : Int → Int → Int)
    (overflowMsg typeMsg : String) : ArithRes :=
  if k = k' then
    let r := f x y
    if k.inRange r then .ok (.intV k r) else .error overflowMsg
  else .error typeMsg

/-- `impl Add for Value`: same-variant integers, and string
concatenation; everything else panics. -/
def Value.add : Value → Value → ArithRes
  | .strV a, .strV b => .ok (.strV (a ++ b))
  | .intV k x, .intV k' y =>
      intOpChecked k k' x y (· + ·) "attempt to add with overflow"
        "cannot add values of different types"
  | _, _ => .error "cannot add values of different types"

/-- `impl Sub for Value`: same-variant integers only. -/
def Value.sub : Value → Value → ArithRes
  | .intV k x, .intV k' y =>
      intOpChecked k k' x y (· - ·) "attempt to subtract with overflow"
        "cannot subtract values of different types"
  | _, _ => .error "cannot subtract values of different types"

/-- `impl Mul for Value`: same-variant integers only. -/
def Value.mul : Value → Value → ArithRes
  | .intV k x, .intV k' y =>
      intOpChecked k k' x y (· * ·) "attempt to multiply with overflow"
        "cannot multiply values of different types"
  | _, _ => .error "cannot multiply values of different types"

/-- `impl Div for Value`: same-variant integers; Rust `/` truncates toward
zero, aborts on division by zero and on `MIN / -1`. -/
def Value.div : Value → Value → ArithRes
  | .intV k x, .intV k' y =>
      if k = k' then
        if y = 0 then .error "attempt to divide by zero"
        else
          let r := Int.tdiv x y
          if k.inRange r then .ok (.intV k r)
          else .error "attempt to divide with overflow"
      else .error "cannot divide values of different types"
  | _, _ => .error "cannot divide values of different types"

/-- `impl Rem for Value`: same-variant integers; Rust `%` keeps the sign
of the dividend, aborts on zero divisor and on `MIN % -1`. -/
def Value.rem : Value → Value → ArithRes
  | .intV k x, .intV k' y =>
      if k = k' then
        if y = 0 then .error "attempt to calculate the remainder with a divisor of zero"
        else if x = k.minVal ∧ y = -1 ∧ k.signed then
          .error "attempt to calculate the remainder with overflow"
        else .ok (.intV k (Int.tmod x y))
      else .error "cannot perform modulo on values of different types"
  | _, _ => .error "cannot perform modulo on values of different types"

/-- `impl Shl for Value`: same-variant integers; Rust aborts when the
shift amount is negative or at least the bit width, and otherwise
discards shifted-out bits. -/
def Value.shlOp : Value → Value → ArithRes
  | .intV k x, .intV k' y =>
      if k = k' then
        if y < 0 ∨ (k.width : Int) ≤ y then
          .error "attempt to shift left with overflow"
        else .ok (.intV k (k.wrap (x * 2 ^ y.toNat)))
      else .error "cannot perform left shift on values of different types"
  | _, _ => .error "cannot perform left shift on values of different types"

/-- `impl Shr for Value`: same-variant integers; arithmetic shift (floor
division by a power of two), same shift-amount abort as `Shl`. -/
def Value.shrOp : Value → Value → ArithRes
  | .intV k x, .intV k' y =>
      if k = k' then
        if y < 0 ∨ (k.width : Int) ≤ y then
          .error "attempt to shift right with overflow"
        else .ok (.intV k (Int.fdiv x (2 ^ y.toNat)))
      else .error "cannot perform right shift on values of different types"
  | _, _ => .error "cannot perform right shift on values of different types"

/-- `impl Neg for Value`: signed integers only (floats are not modelled);
`- MIN` is a debug-build overflow abort, unsigned and non-numeric
variants hit the `panic!` arm. -/
def Value.negOp : Value → ArithRes
  | .intV k x =>
      if k.signed then
        if k.inRange (-x) then .ok (.intV k (-x))
        else .error "attempt to negate with overflow"
      else .error "cannot negate this value type"
  | _ => .error "cannot negate this value type"

/-- `impl Not for Value`: logical on `Bool`, bitwise complement on every
integer variant, `panic!` otherwise. -/
def Value.notOp : Value → ArithRes
  | .boolV b => .ok (.boolV (!b))
  | .intV k x =>
      if k.signed then .ok (.intV k (-x - 1))
      else .ok (.intV k (k.maxVal - x))
  | _ => .error "cannot perform NOT operation on this value type"

/-- `Value::is_truthy` from `vm/mod.rs`. -/
def Value.isTruthy : Value → Bool
  | .intV _ x => x ≠ 0
  | .boolV b => b
  | .charV c => c ≠ Char.ofNat 0
  | .strV s => ¬ s.isEmpty
  | .hashV h => ¬ h.isEmpty
  | .containerV vs => ¬ vs.isEmpty

/-- `Value::and`: the right operand if both are truthy, the first falsy
operand otherwise. -/
def Value.and (a b : Value) : Value :=
  if a.isTruthy ∧ b.isTruthy then b
  else if ¬ a.isTruthy then a
  else b

/-- `Value::or`: the first truthy operand, else the right one. -/
def Value.or (a b : Value) : Value :=
  if a.isTruthy then a
  else if b.isTruthy then b
  else b

end Efa

namespace Efa

/-- Row of the `code_objs` table: `(hash UNIQUE, code_obj UNIQUE, is_main)`.
The deserialized object is carried alongside the blob (the external
`rmp_serde` round-trip is assumed faithful). -/
structure CodeRow where
  hash : Hash
  blob : List Nat
  obj : CodeObject
  is_main : Bool

/-- The store (`struct Database` in `efa-core/src/db/mod.rs`): the
`code_objs` table and the `names` table (`name UNIQUE, hash`), each as an
insertion-ordered list of rows. -/
structure Database where
  code_objs : List CodeRow
  names : List (String × Hash)

/-- The empty store (fresh schema). -/
def Database.temp : Database := ⟨[], []⟩

/-- `Database::get_code_object`: first row of `code_objs` whose hash
matches. -/
def Database.get_code_object (db : Database) (h : Hash) : Option CodeObject :=
  (db.code_objs.find? (fun r => r.hash = h)).map (·.obj)

/-- `Database::get_code_object_by_name`: resolve the name through the
`names` table, then fetch the object by hash. -/
def Database.get_code_object_by_name (db : Database) (n : String) :
    Option (Hash × CodeObject) :=
  match db.names.find? (fun p => p.1 = n) with
  | none => none
  | some (_, h) => (db.get_code_object h).map (fun co => (h, co))

/-- `Database::get_main_object`: first row with `is_main` set. -/
def Database.get_main_object (db : Database) : Option (Hash × CodeObject) :=
  (db.code_objs.find? (·.is_main)).map (fun r => (r.hash, r.obj))

/-- `HashMap::insert` on the association-list model: the new binding
replaces any previous one for the same key. -/
def localsInsert (m : List (String × Value)) (k : String) (v : Value) :
    List (String × Value) :=
  (k, v) :: m.filter (fun p => p.1 ≠ k)

/-- Lookup in the association-list model of `HashMap<String, Value>`. -/
def localsGet (m : List (String × Value)) (k : String) : Option Value :=
  (m.find? (fun p => p.1 = k)).map (·.2)

/-- Collect an iterator of `(name, value)` pairs into a `HashMap`
(`.collect()` in the `Call`/`CallSelf` arms): left-to-right inserts. -/
def localsOfPairs (ps : List (String × Value)) : List (String × Value) :=
  ps.foldl (fun m p => localsInsert m p.1 p.2) []

/-- The argument-popping loop of the `Call`/`CallSelf` arms: walk
`localnames.take(argcount)` and pop one stack value per name, failing
with the arity `bail!` when the stack runs dry. -/
def mkParams : List String → List Value →
    Except String (List (String × Value) × List Value)
  | [], stack => .ok ([], stack)
  | _ :: _, [] =>
      .error "not enough arguments on stack to call function with arity"
  | n :: ns, v :: stack =>
      match mkParams ns stack with
      | .error e => .error e
      | .ok (ps, rest) => .ok ((n, v) :: ps, rest)

/-- VM state during `Vm::exec`: the call stack (head = top frame) plus the
store handle.  The stack caps recorded on `Vm` are carried for fidelity;
`Vm::exec` never reads them. -/
structure VmState where
  call_stack : List StackFrame
  data_stack_cap : Nat
  call_stack_cap : Nat
  db : Database

/-- Outcome of one iteration of the `while` loop in `Vm::exec`. -/
inductive StepRes where
  | done (code : Int)
  | next (st : VmState)
  | err (msg : String)
  | crash (msg : String)

/-- Outcome of `Vm::exec` itself under a fuel bound. -/
inductive RunRes where
  | exit (code : Int)
  | err (msg : String)
  | crash (msg : String)
  | fuelOut (st : VmState)

/-- Per-arm outcome inside the loop body: the mutated current frame, the
next instruction pointer, an optional frame to push and an optional
return disposition (`Some(None)` = `Return`, `Some(Some v)` = `ReturnVal`). -/
structure ArmOut where
  frame : StackFrame
  nextInstr : Nat
  nextFrame : Option StackFrame
  returnValue : Option (Option Value)

/-- Lift an arithmetic/operator result into a push onto the stack
(operator panics become `.crash`). -/
def pushArith (f : StackFrame) (ip : Nat) (r : ArithRes) (s : List Value) :
    Except StepRes ArmOut :=
  match r with
  | .error m => .error (.crash m)
  | .ok v => .ok ⟨{ f with stack := v :: s }, ip, none, none⟩

end Efa

namespace Efa

/-- One iteration of the `while !self.call_stack.is_empty()` loop of
`Vm::exec` (`efa-core/src/vm/mod.rs`).  An empty call stack or an
instruction pointer past the end of the code breaks the loop with the
current status code (0 — a nonzero status exits immediately when set). -/
def execStep (st : VmState) : StepRes :=
  match st.call_stack with
  | [] => .done 0
  | frame :: rest =>
    match frame.code_obj.code.get? frame.instruction with
    | none => .done 0
    | some instr =>
      let ip := frame.instruction + 1
      let s := frame.stack
      let co := frame.code_obj
      let armRes : Except StepRes ArmOut :=
        match instr with
        | .loadArg i =>
            if i ≥ co.argcount then
              .error (.err "argument index out of bounds")
            else match co.localnames.get? i with
            | none => .error (.crash "index out of bounds")
            | some nm =>
              match localsGet frame.locals nm with
              | none => .error (.err "argument with index is out of bounds")
              | some v => .ok ⟨{ frame with stack := v :: s }, ip, none, none⟩
        | .loadLocal i =>
            let k := i + co.argcount
            if k ≥ co.localnames.length then
              .error (.err "local index out of bounds")
            else match co.localnames.get? k with
            | none => .error (.crash "index out of bounds")
            | some nm =>
              match localsGet frame.locals nm with
              | none => .error (.err "local with index is out of bounds")
              | some v => .ok ⟨{ frame with stack := v :: s }, ip, none, none⟩
        | .loadLit i =>
            match co.litpool.get? i with
            | none => .error (.crash "index out of bounds")
            | some v => .ok ⟨{ frame with stack := v :: s }, ip, none, none⟩
        | .storeLocal i =>
            let k := i + co.argcount
            match co.localnames.get? k with
            | none => .error (.crash "index out of bounds")
            | some nm =>
              match s with
              | [] => .error (.crash "called unwrap on a None value")
              | v :: s' =>
                let f' := { frame with stack := s', locals := localsInsert frame.locals nm v }
                .ok ⟨f', ip, none, none⟩
        | .pop => .ok ⟨{ frame with stack := s.tail }, ip, none, none⟩
        | .dup =>
            match s with
            | [] => .error (.crash "called unwrap on a None value")
            | v :: _ => .ok ⟨{ frame with stack := v :: s }, ip, none, none⟩
        | .loadFunc h => .ok ⟨{ frame with stack := .hashV h :: s }, ip, none, none⟩
        | .loadDyn nm =>
            match st.db.get_code_object_by_name nm with
            | none => .error (.err "query failed: no code object with name")
            | some (h, _) => .ok ⟨{ frame with stack := .hashV h :: s }, ip, none, none⟩
        | .call =>
            match s with
            | .hashV h :: s' =>
              match st.db.get_code_object h with
              | none => .error (.err "query failed: no code object with hash")
              | some callee =>
                match mkParams (callee.localnames.take callee.argcount) s' with
                | .error e => .error (.err e)
                | .ok (ps, s'') =>
                  .ok ⟨{ frame with stack := s'' }, ip,
                       some ⟨callee, [], localsOfPairs ps, 0⟩, none⟩
            | _ => .error (.err "cannot call function: function hash not present")
        | .callSelf =>
            match mkParams (co.localnames.take co.argcount) s with
            | .error e => .error (.err e)
            | .ok (ps, s') =>
              .ok ⟨{ frame with stack := s' }, ip,
                   some ⟨co, [], localsOfPairs ps, 0⟩, none⟩
        | .ret => .ok ⟨frame, ip, none, some none⟩
        | .retVal =>
            match s with
            | [] => .error (.err "non-void function requires a return value on the stack")
            | v :: s' => .ok ⟨{ frame with stack := s' }, ip, none, some (some v)⟩
        | .jump l =>
            match co.labels.get? l with
            | none => .error (.crash "index out of bounds")
            | some o => .ok ⟨frame, o, none, none⟩
        | .jumpT l =>
            match s with
            | [] => .error (.err "cannot perform jump: stack underflow")
            | top :: s' =>
              if top.beq (.boolV true) then
                match co.labels.get? l with
                | none => .error (.err "label does not exist")
                | some o => .ok ⟨{ frame with stack := s' }, o, none, none⟩
              else .ok ⟨{ frame with stack := s' }, ip, none, none⟩
        | .jumpF l =>
            match s with
            | [] => .error (.err "cannot perform jump: stack underflow")
            | top :: s' =>
              if top.beq (.boolV false) then
                match co.labels.get? l with
                | none => .error (.crash "index out of bounds")
                | some o => .ok ⟨{ frame with stack := s' }, o, none, none⟩
              else .ok ⟨{ frame with stack := s' }, ip, none, none⟩
        | .jumpEq l =>
            match s with
            | rhs :: lhs :: s' =>
              if lhs.beq rhs then
                match co.labels.get? l with
                | none => .error (.crash "index out of bounds")
                | some o => .ok ⟨{ frame with stack := s' }, o, none, none⟩
              else .ok ⟨{ frame with stack := s' }, ip, none, none⟩
            | _ => .error (.err "cannot perform comparison: stack underflow")
        | .jumpNe l =>
            match s with
            | rhs :: lhs :: s' =>
              if lhs.beq rhs then .ok ⟨{ frame with stack := s' }, ip, none, none⟩
              else
                match co.labels.get? l with
                | none => .error (.crash "index out of bounds")
                | some o => .ok ⟨{ frame with stack := s' }, o, none, none⟩
            | _ => .error (.err "cannot perform comparison: stack underflow")
        | .jumpGt l =>
            match s with
            | rhs :: lhs :: s' =>
              match lhs.partialCmp rhs with
              | none => .error (.crash "cannot compare")
              | some ord =>
                if ord = .gt then
                  match co.labels.get? l with
                  | none => .error (.crash "index out of bounds")
                  | some o => .ok ⟨{ frame with stack := s' }, o, none, none⟩
                else .ok ⟨{ frame with stack := s' }, ip, none, none⟩
            | _ => .error (.err "cannot perform comparison: stack underflow")
        | .jumpGe l =>
            match s with
            | rhs :: lhs :: s' =>
              match lhs.partialCmp rhs with
              | none => .error (.crash "cannot compare")
              | some ord =>
                if ord = .gt ∨ ord = .eq then
                  match co.labels.get? l with
                  | none => .error (.crash "index out of bounds")
                  | some o => .ok ⟨{ frame with stack := s' }, o, none, none⟩
                else .ok ⟨{ frame with stack := s' }, ip, none, none⟩
            | _ => .error (.err "cannot perform comparison: stack underflow")
        | .jumpLt l =>
            match s with
            | rhs :: lhs :: s' =>
              match lhs.partialCmp rhs with
              | none => .error (.crash "cannot compare")
              | some ord =>
                if ord = .lt then
                  match co.labels.get? l with
                  | none => .error (.crash "index out of bounds")
                  | some o => .ok ⟨{ frame with stack := s' }, o, none, none⟩
                else .ok ⟨{ frame with stack := s' }, ip, none, none⟩
            | _ => .error (.err "cannot perform comparison: stack underflow")
        | .jumpLe l =>
            match s with
            | rhs :: lhs :: s' =>
              match lhs.partialCmp rhs with
              | none => .error (.crash "cannot compare")
              | some ord =>
                if ord = .lt ∨ ord = .eq then
                  match co.labels.get? l with
                  | none => .error (.crash "index out of bounds")
                  | some o => .ok ⟨{ frame with stack := s' }, o, none, none⟩
                else .ok ⟨{ frame with stack := s' }, ip, none, none⟩
            | _ => .error (.err "cannot perform comparison: stack underflow")
        | .binOp op =>
            match s with
            | rhs :: lhs :: s' =>
              match op with
              | .add => pushArith frame ip (lhs.add rhs) s'
              | .mul => pushArith frame ip (lhs.mul rhs) s'
              | .div => pushArith frame ip (lhs.div rhs) s'
              | .sub => pushArith frame ip (lhs.sub rhs) s'
              | .mod_ => pushArith frame ip (lhs.rem rhs) s'
              | .shl => pushArith frame ip (lhs.shlOp rhs) s'
              | .shr => pushArith frame ip (lhs.shrOp rhs) s'
              | .and => .ok ⟨{ frame with stack := lhs.and rhs :: s' }, ip, none, none⟩
              | .eq => .ok ⟨{ frame with stack := .boolV (lhs.beq rhs) :: s' }, ip, none, none⟩
              | .or => .ok ⟨{ frame with stack := lhs.or rhs :: s' }, ip, none, none⟩
            | _ => .error (.err "cannot perform binary operation: stack underflow")
        | .unaryOp op =>
            match s with
            | arg :: s' =>
              match op with
              | .not => pushArith frame ip arg.notOp s'
              | .neg => pushArith frame ip arg.negOp s'
            | [] => .error (.err "cannot perform binary operation: stack underflow")
        | .contMakeS _ | .contMake | .contInsertS _ | .contInsert
        | .contGetS _ | .contGet | .contSetS _ | .contSet
        | .contHead | .contTail | .contExt | .contLen =>
            .ok ⟨frame, ip, none, none⟩
        | .dbg =>
            match s with
            | [] => .error (.err "stack underflow: cannot dbg with empty stack")
            | _ => .ok ⟨frame, ip, none, none⟩
        | .nop => .ok ⟨frame, ip, none, none⟩
      match armRes with
      | .error r => r
      | .ok a =>
        let frame1 := { a.frame with instruction := a.nextInstr }
        let cs1 := frame1 :: rest
        let cs2 := match a.nextFrame with
          | some nf => nf :: cs1
          | none => cs1
        match a.returnValue with
        | some (some v) =>
          if rest.isEmpty then
            match v with
            | .intV .i32 c => .done c
            | _ => .err "main function can only return integers"
          else
            match cs2 with
            | _ :: caller :: below =>
              .next { st with call_stack :=
                        { caller with stack := v :: caller.stack } :: below }
            | _ => .crash "unreachable"
        | some none => .next { st with call_stack := cs2.tail }
        | none => .next { st with call_stack := cs2 }

/-- `Vm::exec` under a fuel bound: iterate `execStep` until the loop
terminates, an error is surfaced, or the host panics. -/
def execLoop : Nat → VmState → RunRes
  | 0, st => .fuelOut st
  | fuel + 1, st =>
    match execStep st with
    | .done c => .exit c
    | .err m => .err m
    | .crash m => .crash m
    | .next st' => execLoop fuel st'

/-- `Vm::run_main_function`: look up the `main` object, push an initial
frame (empty stack, empty locals, ip 0) and run the loop. -/
def runMainFunction (db : Database) (fuel : Nat) : RunRes :=
  match db.get_main_object with
  | none => .err "query failed: no main object found"
  | some (_, co) =>
    execLoop fuel ⟨[⟨co, [], [], 0⟩], STACK_CAP, STACK_CAP, db⟩

end Efa

namespace Efa

/-- Serialization of a `Value` to bytes.  Modelled from the spec: the
implementation serializes with the external `rmp_serde` crate (a
"MessagePack-class deterministic binary encoding"); the stand-in below is
a fixed deterministic tagged encoding with the same role. -/
def encValue : Value → List Nat
  | .intV k x => 0 :: IntKind.toCtorIdx k ::
      (if x < 0 then [1, x.natAbs] else [0, x.natAbs])
  | .charV c => [1, c.toNat]
  | .boolV b => [2, if b then 1 else 0]
  | .hashV h => 3 :: h.length :: h
  | .strV s => 4 :: s.length :: (s.toList.map Char.toNat)
  | .containerV vs => 5 :: vs.length :: encList vs
where
  /-- Concatenated encodings of a value list. -/
  encList : List Value → List Nat
  | [] => []
  | v :: vs => encValue v ++ encList vs

/-- Byte encoding of a string with a length prefix. -/
def encStr (s : String) : List Nat :=
  s.length :: (s.toList.map Char.toNat)

/-- Serialization of an `Instr` to bytes (same stand-in role as
`encValue`). -/
def encInstr : Instr → List Nat
  | .loadArg i => [0, i] | .loadLocal i => [1, i] | .loadLit i => [2, i]
  | .storeLocal i => [3, i] | .pop => [4] | .dup => [5]
  | .loadFunc h => 6 :: h.length :: h
  | .loadDyn n => 7 :: encStr n
  | .call => [8] | .callSelf => [9] | .ret => [10] | .retVal => [11]
  | .jump l => [12, l] | .jumpT l => [13, l] | .jumpF l => [14, l]
  | .jumpEq l => [15, l] | .jumpNe l => [16, l] | .jumpGt l => [17, l]
  | .jumpGe l => [18, l] | .jumpLt l => [19, l] | .jumpLe l => [20, l]
  | .binOp op => [21, BinOp.toCtorIdx op]
  | .unaryOp op => [22, UnaryOp.toCtorIdx op]
  | .contMakeS n => [23, n] | .contMake => [24]
  | .contInsertS i => [25, i] | .contInsert => [26]
  | .contGetS i => [27, i] | .contGet => [28]
  | .contSetS i => [29, i] | .contSet => [30]
  | .contHead => [31] | .contTail => [32] | .contExt => [33] | .contLen => [34]
  | .dbg => [35] | .nop => [36]

/-- `rmp_serde::to_vec(code_obj)` — deterministic byte serialization of a
code object (stand-in encoding, see `encValue`). -/
def serializeCodeObject (co : CodeObject) : List Nat :=
  co.litpool.length :: (co.litpool.map encValue).flatten ++
  co.argcount ::
  co.localnames.length :: (co.localnames.map encStr).flatten ++
  co.labels.length :: co.labels ++
  co.code.length :: (co.code.map encInstr).flatten

/-- `CodeObject::hash`: `truncate16(SHA512(serialize(obj)))`.  Modelled
from the spec: SHA-512 lives in the external `sha2` crate; the stand-in is
a fixed deterministic digest truncated to `HASH_SIZE` bytes.  Every claim
proved below depends only on the digest being a function of the serialized
bytes, not on its cryptographic properties. -/
def CodeObject.hash (co : CodeObject) : Hash :=
  let bytes := serializeCodeObject co
  let acc := bytes.foldl (fun a b => (a * 31 + b + 1) % (2 ^ 128)) 7
  (List.range HASH_SIZE).map (fun i => (acc / 2 ^ (8 * i)) % 256)

/-- `Database::insert_code_object`: serialize, hash, and run the plain
SQL `INSERT INTO code_objs …`.  The `hash` and `code_obj` columns are
declared `UNIQUE`, so the insert fails if either value is already present
in the table. -/
def Database.insert_code_object (db : Database) (co : CodeObject)
    (is_main : Bool) : Except String (Hash × Database) :=
  let obj := serializeCodeObject co
  let h := co.hash
  if db.code_objs.any (fun r => r.hash = h ∨ r.blob = obj) then
    .error "UNIQUE constraint failed: code_objs"
  else
    .ok (h, { db with code_objs := db.code_objs ++ [⟨h, obj, co, is_main⟩] })

/-- `is_valid_name` (`efa-core/src/lib.rs`): the name parses as an
identifier (`syn::Ident`): nonempty, first character a letter or
underscore, the rest letters, digits or underscores.  (`syn` additionally
rejects Rust keywords; no claim depends on that.) -/
def is_valid_name (name : String) : Bool :=
  match name.toList with
  | [] => false
  | c :: cs => (c.isAlpha ∨ c = '_') ∧ cs.all (fun d => d.isAlphanum ∨ d = '_')

/-- `Database::insert_code_object_with_name`: validate the name, insert
the object (`is_main` iff the name is `main`), then insert into the
`names` table whose `name` column is `UNIQUE`. -/
def Database.insert_code_object_with_name (db : Database) (co : CodeObject)
    (name : String) : Except String (Hash × Database) :=
  if ¬ is_valid_name name then
    .error "cannot insert code object with invalid name"
  else
    match db.insert_code_object co (name = "main") with
    | .error e => .error e
    | .ok (h, db1) =>
      if db1.names.any (fun p => p.1 = name) then
        .error "UNIQUE constraint failed: names"
      else
        .ok (h, { db1 with names := db1.names ++ [(name, h)] })

end Efa

namespace Efa

/-- `DynCallResolver::solve_node` (`solver/resolve_dyn.rs`): the direct
dependencies of one function are exactly the names of its `LoadDyn`
instructions, collected into a set (modelled as a deduplicated list).
`CallSelf` is not collected, so it contributes no dependency edge. -/
def solve_node (co : CodeObject) : List String :=
  (co.code.filterMap (fun i =>
    match i with
    | .loadDyn n => some n
    | _ => none)).dedup

/-- `DynCallResolver::solve`: the dependency graph of the input set, one
entry per function, in input order. -/
def solveGraph (objs : List (String × CodeObject)) : List (String × List String) :=
  objs.map (fun p => (p.1, solve_node p.2))

/-- DFS marks: `Temp` (on-stack) and `Final` (done); unvisited nodes are
absent from the mark list. -/
inductive Mark where
  | temp | final
  deriving DecidableEq, Repr

/-- Lookup in an association list of marks. -/
def markOf (marks : List (String × Mark)) (n : String) : Option Mark :=
  (marks.find? (fun p => p.1 = n)).map (·.2)

/-- Work items of the DFS: `enter n` begins the visit of node `n`;
`leave n` runs once all of `n`'s dependencies are done and finalizes it. -/
inductive Task where
  | enter (n : String)
  | leave (n : String)
  deriving DecidableEq, Repr

/-- The DFS of the resolve pass.  Modelled from the spec: the free
function `toposort` imported by `DynCallResolver::new` is not under
`src/` (`solver/toposort.rs` holds only an unused skeleton with the same
three-mark scheme), so this follows §4.E of the spec: "DFS with three
marks (unvisited, on-stack, done); if a `LoadDyn` target is still
on-stack, the graph has a cycle and the pass fails with a cycle error",
and missing names (dependencies that are not nodes of the graph) are
skipped — they stay dynamic.  The recursion is run on an explicit task
stack, the standard enter/leave formulation of the same DFS, so that the
definition is structurally recursive on the fuel.  Visiting an `enter`ed
node marked on-stack is the cycle error; `leave` finalizes a node and
prepends it to the order, so every node is listed before its
dependencies (the reverse-topological walk in `resolve_dyn_calls`
iterates the order reversed). -/
def dfsRun (g : List (String × List String)) :
    Nat → List Task → List (String × Mark) → List String →
    Except String (List (String × Mark) × List String)
  | 0, _, _, _ => .error "toposort: out of fuel"
  | _ + 1, [], marks, sorted => .ok (marks, sorted)
  | fuel + 1, .enter n :: rest, marks, sorted =>
    match markOf marks n with
    | some .final => dfsRun g fuel rest marks sorted
    | some .temp => .error "toposort: error: graph has cycle"
    | none =>
      match g.find? (fun p => p.1 = n) with
      | none => dfsRun g fuel rest marks sorted
      | some (_, deps) =>
        dfsRun g fuel (deps.map .enter ++ .leave n :: rest)
          ((n, .temp) :: marks) sorted
  | fuel + 1, .leave n :: rest, marks, sorted =>
    dfsRun g fuel rest ((n, .final) :: marks) (n :: sorted)

/-- Fuel that provably suffices for the whole traversal: one unit per
initial task plus one per node expansion. -/
def toposortFuel (g : List (String × List String)) : Nat :=
  1 + g.length + ((g.map (fun p => p.2.length + 1)).sum)

/-- The `toposort` free function used by `DynCallResolver::new`
(spec-modelled, see `dfsRun`): a linear order of the graph nodes in which
every function precedes its dependencies, or a cycle error. -/
def toposort (g : List (String × List String)) : Except String (List String) :=
  match dfsRun g (toposortFuel g) ((g.map Prod.fst).map .enter) [] [] with
  | .error e => .error e
  | .ok (_, sorted) => .ok sorted

/-- The rewrite of one function's code in `resolve_dyn_calls`: every
`LoadDyn` must already be in the `hashed` map and becomes a `LoadFunc`;
a `LoadDyn` whose name is absent makes the whole pass fail. -/
def rewriteInstrs (hashed : List (String × Hash)) (code : List Instr) :
    Except String (List Instr) :=
  match code with
  | [] => .ok []
  | i :: rest =>
    match i with
    | .loadDyn dynName =>
      match (hashed.find? (fun p => p.1 = dynName)).map (·.2) with
      | none => .error "dyn_name should have already been hashed"
      | some h =>
        match rewriteInstrs hashed rest with
        | .error e => .error e
        | .ok rest' => .ok (.loadFunc h :: rest')
    | other =>
      match rewriteInstrs hashed rest with
      | .error e => .error e
      | .ok rest' => .ok (other :: rest')

/-- The body of the `map` in `DynCallResolver::resolve_dyn_calls`
(`solver/resolve_dyn.rs` lines 58–94): walk the hash order reversed
(dependencies first), rewrite each function's `LoadDyn`s from the
`hashed` map, hash the rewrite and record it. -/
def resolveWalk (objs : List (String × CodeObject)) :
    List String → List (String × Hash) →
    Except String (List (String × CodeObject))
  | [], _ => .ok []
  | name :: order, hashed =>
    match (objs.find? (fun p => p.1 = name)).map (·.2) with
    | none => .error "object not present"
    | some obj =>
      match rewriteInstrs hashed obj.code with
      | .error e => .error e
      | .ok newCode =>
        let newObj := { obj with code := newCode }
        match resolveWalk objs order ((name, newObj.hash) :: hashed) with
        | .error e => .error e
        | .ok rest => .ok ((name, newObj) :: rest)

/-- `DynCallResolver::new` followed by `resolve_dyn_calls`: build the
dependency graph, topologically sort it, then rewrite in reverse order.
The output is the name → rewritten-object map. -/
def resolveDynCalls (objs : List (String × CodeObject)) :
    Except String (List (String × CodeObject)) :=
  match toposort (solveGraph objs) with
  | .error e => .error e
  | .ok hash_order => resolveWalk objs hash_order.reverse []

end Efa

namespace Efa

/-- `enum ParseError` from `asm/parser.rs` (the variants exercised by the
line decoder). -/
inductive ParseErr where
  | unexpectedArgument
  | expectedArgument
  | syntaxError
  | invalidFuncDef
  | unknownInstr (line : String)
  | unknownLabel
  | badHash
  deriving DecidableEq, Repr

/-- `enum ParseToken` from `asm/parser.rs`. -/
inductive ParseToken where
  | funcDef (name : String) (arity : Nat)
  | instrTok (i : Instr)
  | labelTok (name : String)
  deriving Repr

/-- Character-list splitter behind `splitWhitespace` (structural, so the
kernel can evaluate it on literals). -/
def splitWsAux : List Char → List Char → List String
  | [], acc => if acc.isEmpty then [] else [⟨acc.reverse⟩]
  | c :: cs, acc =>
    if c.isWhitespace then
      if acc.isEmpty then splitWsAux cs []
      else ⟨acc.reverse⟩ :: splitWsAux cs []
    else splitWsAux cs (c :: acc)

/-- `str::split_whitespace`: the nonempty maximal runs between
whitespace. -/
def splitWhitespace (s : String) : List String := splitWsAux s.toList []

/-- `str::parse::<usize>` on a decimal string (kernel-evaluable stand-in
for `String.toNat?`). -/
def strToNat? (s : String) : Option Nat :=
  if s.toList ≠ [] ∧ s.toList.all Char.isDigit then
    some (s.toList.foldl (fun a c => a * 10 + (c.toNat - Char.toNat (Char.ofNat 48))) 0)
  else none

/-- First `n` characters of a string. -/
def strTake (s : String) (n : Nat) : String := ⟨s.toList.take n⟩

/-- String without its first `n` characters. -/
def strDrop (s : String) (n : Nat) : String := ⟨s.toList.drop n⟩

/-- Last `n` characters of a string. -/
def strTakeRight (s : String) (n : Nat) : String :=
  ⟨s.toList.drop (s.toList.length - n)⟩

/-- String without its last `n` characters. -/
def strDropRight (s : String) (n : Nat) : String :=
  ⟨s.toList.take (s.toList.length - n)⟩

/-- Decode one hex digit. -/
def hexDigit (c : Char) : Option Nat :=
  if c.isDigit then some (c.toNat - '0'.toNat)
  else if 'a' ≤ c ∧ c ≤ 'f' then some (c.toNat - 'a'.toNat + 10)
  else if 'A' ≤ c ∧ c ≤ 'F' then some (c.toNat - 'A'.toNat + 10)
  else none

/-- `hex::decode`: pairs of hex digits to bytes; fails on a non-hex
character or an odd length. -/
def hexDecode : List Char → Option (List Nat)
  | [] => some []
  | [_] => none
  | a :: b :: rest =>
    match hexDigit a, hexDigit b, hexDecode rest with
    | some x, some y, some tl => some ((x * 16 + y) :: tl)
    | _, _, _ => none

/-- `hash_from_str` (`efa-core/src/lib.rs`): strip the mandatory `0x`
prefix, hex-decode, and require exactly `HASH_SIZE` bytes. -/
def hashFromStr (s : String) : Option Hash :=
  if strTake s 2 = "0x" then
    match hexDecode (strDrop s 2).toList with
    | some bytes => if bytes.length = HASH_SIZE then some bytes else none
    | none => none
  else none

/-- `Parser::is_func_def`: a two-word line `$name ARITY:`; `none` when the
shape does not match, an `InvalidFuncDef` error when it matches but the
name or arity is bad. -/
def isFuncDef (line : String) : Option (Except ParseErr (String × Nat)) :=
  match splitWhitespace line with
  | [name, arg] =>
    if strTake name 1 = "$" ∧ strTakeRight arg 1 = ":" then
      let name' := strDrop name 1
      let arity := strDropRight arg 1
      match strToNat? arity with
      | some n => if is_valid_name name' then some (.ok (name', n))
                  else some (.error .invalidFuncDef)
      | none => some (.error .invalidFuncDef)
    else none
  | _ => none

/-- `Parser::get_jump_instr` (`asm/parser.rs` lines 370–387): look the
label name up, then dispatch on the mnemonic.  The match has arms for
`jmp`, `jmp_t`, `jmp_f`, `jmp_eq`, `jmp_gt`, `jmp_ge`, `jmp_lt` and
`jmp_le` — and no arm for `jmp_ne`, which therefore falls through to
`UnknownInstr`. -/
def getJumpInstr (op : String) (labelNames : List (String × Nat))
    (arg : String) : Except ParseErr Instr :=
  match (labelNames.find? (fun p => p.1 = arg)).map (·.2) with
  | none => .error .unknownLabel
  | some idx =>
    match op with
    | "jmp" => .ok (.jump idx)
    | "jmp_t" => .ok (.jumpT idx)
    | "jmp_f" => .ok (.jumpF idx)
    | "jmp_eq" => .ok (.jumpEq idx)
    | "jmp_gt" => .ok (.jumpGt idx)
    | "jmp_ge" => .ok (.jumpGe idx)
    | "jmp_lt" => .ok (.jumpLt idx)
    | "jmp_le" => .ok (.jumpLe idx)
    | _ => .error (.unknownInstr op)

/-- The non-jump instruction arms of the decode `match` in
`Parser::parse_function` (lines 304–353).  The boolean result records
whether the line clears the `is_void` flag: the `ret_val` arm sets
`is_void = false` but emits `Instr::Return` — not `Instr::ReturnVal`. -/
def decodeBase (line base : String) (intArg : Option Nat)
    (strArg : Option String) : Except ParseErr (Instr × Bool) :=
  match base, intArg, strArg with
  | "load_arg", some a, none => .ok (.loadArg a, false)
  | "load_loc", some a, none => .ok (.loadLocal a, false)
  | "load_lit", some a, none => .ok (.loadLit a, false)
  | "store_loc", some a, none => .ok (.storeLocal a, false)
  | "pop", none, none => .ok (.pop, false)
  | "dup", none, none => .ok (.dup, false)
  | "load_func", none, some h =>
    match hashFromStr h with
    | some bytes => .ok (.loadFunc bytes, false)
    | none => .error .badHash
  | "load_func", none, none => .error .expectedArgument
  | "load_dyn", none, some arg => .ok (.loadDyn (strDrop arg 1), false)
  | "call", none, none => .ok (.call, false)
  | "call_self", none, none => .ok (.callSelf, false)
  | "ret", none, none => .ok (.ret, false)
  | "ret_val", none, none => .ok (.ret, true)
  | "add", none, none => .ok (.binOp .add, false)
  | "mul", none, none => .ok (.binOp .mul, false)
  | "div", none, none => .ok (.binOp .div, false)
  | "sub", none, none => .ok (.binOp .sub, false)
  | "mod", none, none => .ok (.binOp .mod_, false)
  | "shl", none, none => .ok (.binOp .shl, false)
  | "shr", none, none => .ok (.binOp .shr, false)
  | "and", none, none => .ok (.binOp .and, false)
  | "or", none, none => .ok (.binOp .or, false)
  | "eq", none, none => .ok (.binOp .eq, false)
  | "not", none, none => .ok (.unaryOp .not, false)
  | "neg", none, none => .ok (.unaryOp .neg, false)
  | "nop", none, none => .ok (.nop, false)
  | "dbg", none, none => .ok (.dbg, false)
  | _, _, _ => .error (.unknownInstr line)

/-- One line of the token `map` in `Parser::parse_function` (lines
263–356): function definition, label, or instruction.  The Rust `match`
uses a guard arm for the `jmp*` mnemonics between the literal arms; no
literal arm starts with `jmp`, so testing the prefix first is
behavior-preserving.  The boolean result records whether the line clears
the function's `is_void` flag. -/
def parseLine (labelNames : List (String × Nat)) (line : String) :
    Except ParseErr (ParseToken × Bool) :=
  let parts := splitWhitespace line
  if parts.length > 2 then .error .unexpectedArgument
  else
    match parts with
    | [] => .error .syntaxError
    | base :: restParts =>
      let argument := restParts.head?
      match isFuncDef line with
      | some (.ok (name, arity)) => .ok (.funcDef name arity, false)
      | some (.error e) => .error e
      | none =>
        if argument = none ∧ strTakeRight base 1 = ":" then
          .ok (.labelTok (strDropRight base 1), false)
        else
          let intArg := argument.bind strToNat?
          let strArg := if intArg.isSome then none else argument
          if strTake base 3 = "jmp" then
            match intArg, strArg with
            | none, some arg =>
              match getJumpInstr base labelNames arg with
              | .ok i => .ok (.instrTok i, false)
              | .error e => .error e
            | _, _ => .error (.unknownInstr line)
          else
            match decodeBase line base intArg strArg with
            | .ok (i, clearsVoid) => .ok (.instrTok i, clearsVoid)
            | .error e => .error e

end Efa

namespace Efa

/-- A VM state holding a single frame over `co` with operand stack `stk`
(the shape `run_main_function` builds, plus a chosen starting stack). -/
def singleFrameState (co : CodeObject) (stk : List Value) (db : Database) : VmState :=
  ⟨[⟨co, stk, [], 0⟩], STACK_CAP, STACK_CAP, db⟩

/-- `main` consisting of a single `CallSelf`: unbounded recursion. -/
def bombObj : CodeObject := ⟨[], 0, [], [], [.callSelf]⟩

/-- Start state of the `CallSelf` bomb. -/
def bombState : VmState := singleFrameState bombObj [] Database.temp

/-- `main` that pushes a literal and jumps back forever: unbounded
operand-stack growth. -/
def opBombObj : CodeObject := ⟨[Value.int 1], 0, [], [0], [.loadLit 0, .jump 0]⟩

/-- Start state of the operand-stack bomb. -/
def opBombState : VmState := singleFrameState opBombObj [] Database.temp

/-- Observe the call-stack depth after running `fuel` steps (when the
execution is still running). -/
def callStackLenAfter (fuel : Nat) (st : VmState) : Option Nat :=
  match execLoop fuel st with
  | .fuelOut st' => some st'.call_stack.length
  | _ => none

/-- Observe the top frame's operand-stack depth after `fuel` steps (when
the execution is still running). -/
def topOperandLenAfter (fuel : Nat) (st : VmState) : Option Nat :=
  match execLoop fuel st with
  | .fuelOut st' => st'.call_stack.head?.map (fun f => f.stack.length)
  | _ => none

/-- A two-argument demo callee (`argcount = 2`). -/
def demoCallee : CodeObject := ⟨[], 2, ["x", "y", "z"], [], [.loadArg 0, .retVal]⟩

/-- Hash key under which the demo callee is stored. -/
def demoCalleeHash : Hash := List.replicate 16 7

/-- A store holding only the demo callee. -/
def demoDb : Database := ⟨[⟨demoCalleeHash, [], demoCallee, false⟩], [("callee", demoCalleeHash)]⟩

/-- A caller about to execute `Call` with the callee hash and two
arguments on the operand stack. -/
def demoCaller : CodeObject := ⟨[], 0, [], [], [.call, .ret]⟩

/-- A two-argument function whose second instruction is `CallSelf`. -/
def demoSelfCo : CodeObject := ⟨[], 2, ["x", "y", "z"], [], [.nop, .callSelf]⟩

/-- The function used for the C2 failing input: `main` whose `LoadDyn`
names a function that is not in the input set. -/
def coMainMissing : CodeObject := ⟨[], 0, [], [], [.loadDyn "missing", .pop, .ret]⟩

/-- `double` for the C2 positive branch. -/
def coDouble : CodeObject :=
  ⟨[Value.int 2], 1, ["x"], [], [.loadArg 0, .loadLit 0, .binOp .mul, .retVal]⟩

/-- `main` that references `double` symbolically. -/
def coMainDouble : CodeObject :=
  ⟨[Value.int 22], 0, [], [], [.loadLit 0, .loadDyn "double", .call, .retVal]⟩

/-- Demo object for the store-insert claims. -/
def demoObj : CodeObject := ⟨[Value.int 5], 0, [], [], [.loadLit 0, .retVal]⟩

/-- The store after inserting `demoObj` into a fresh one. -/
def demoDb1 : Database :=
  ⟨[⟨demoObj.hash, serializeCodeObject demoObj, demoObj, false⟩], []⟩

/-- Run the insert twice from a fresh store and record whether each
attempt succeeds. -/
def insertTwice (co : CodeObject) : Bool × Bool :=
  match Database.temp.insert_code_object co false with
  | .error _ => (false, false)
  | .ok (_, db1) =>
    match db1.insert_code_object co false with
    | .error _ => (true, false)
    | .ok _ => (true, true)

end Efa

namespace Efa

/-- The cycle error message of the resolve pass. -/
def cycleMsg : String := "toposort: error: graph has cycle"

/-- The fuel-exhaustion marker of the modelled DFS (shown below to be
unreachable at the fuel `toposort` supplies). -/
def fuelMsg : String := "toposort: out of fuel"

/-- The nodes of a dependency graph. -/
def graphKeys (g : List (String × List String)) : List String := g.map Prod.fst

/-- The dependency list of a node (empty for non-nodes). -/
def depsOf (g : List (String × List String)) (n : String) : List String :=
  ((g.find? (fun p => p.1 = n)).map (·.2)).getD []

/-- A dependency edge between two nodes of the graph.  Edges whose target
is not a node (a missing name) cannot lie on a cycle and are excluded. -/
def Edge (g : List (String × List String)) (a b : String) : Prop :=
  a ∈ graphKeys g ∧ b ∈ graphKeys g ∧ b ∈ depsOf g a

/-- A path of edges from `a` through `p` to `b`. -/
def EdgePath (g : List (String × List String)) : String → List String → String → Prop
  | a, [], b => Edge g a b
  | a, x :: xs, b => Edge g a x ∧ EdgePath g x xs b

/-- The graph contains a (possibly self-loop) cycle. -/
def HasCycle (g : List (String × List String)) : Prop :=
  ∃ n p, EdgePath g n p n

/-- Remaining work: one unit per entry of an unmarked node plus one per
pending dependency of such a node — an upper bound on the steps the DFS
can still spend expanding nodes. -/
def pendingWeight (g : List (String × List String))
    (marks : List (String × Mark)) : Nat :=
  match g with
  | [] => 0
  | p :: g' =>
    (if markOf marks p.1 = none then p.2.length + 1 else 0) +
      pendingWeight g' marks

/-- A dependency edge that is not a self-loop. -/
def EdgeNS (g : List (String × List String)) (a b : String) : Prop :=
  Edge g a b ∧ a ≠ b

/-- A path of non-self-loop edges. -/
def EdgePathNS (g : List (String × List String)) :
    String → List String → String → Prop
  | a, [], b => EdgeNS g a b
  | a, x :: xs, b => EdgeNS g a x ∧ EdgePathNS g x xs b

/-- The graph contains a cycle that uses no self-loop edge. -/
def HasCycleNS (g : List (String × List String)) : Prop :=
  ∃ n p, EdgePathNS g n p n

/-- A function whose only dependency is a `LoadDyn` of its own name. -/
def selfLoopCo : CodeObject := ⟨[], 0, [], [], [.loadDyn "f", .pop, .ret]⟩

/-- On `.ok` results the DFS only ever adds `Final` marks on top of the
existing ones: every node final before is final after. -/
def FinalMono (marks marks' : List (String × Mark)) : Prop :=
  ∀ n, markOf marks n = some Mark.final → markOf marks' n = some Mark.final

/-- Shape invariant of the DFS task stack.  The stack decomposes into
blocks of pending `enter` tasks separated by `leave` markers, innermost
first; `chain` lists the `leave`-marked (on-stack) nodes, innermost
first, and `above` is the node whose expansion produced the current
innermost block (`none` at the top level).  Each frame records that its
pending enters are dependencies of its node, that the node is a graph
node, that the inner node is one of its dependencies, and that each of
its dependencies that is a graph node is already final, still pending in
its block, or the inner node itself. -/
inductive DfsStack (g : List (String × List String))
    (marks : List (String × Mark)) :
    List Task → List String → Option String → Prop
  | root (E : List Task) (above : Option String)
      (hE : ∀ t ∈ E, ∃ d, t = Task.enter d) :
      DfsStack g marks E [] above
  | frame (E : List Task) (m : String) (rest : List Task)
      (chain : List String) (above : Option String)
      (hE : ∀ t ∈ E, ∃ d, t = Task.enter d ∧ d ∈ depsOf g m)
      (hm : m ∈ graphKeys g)
      (habove : ∀ a, above = some a → a ∈ depsOf g m)
      (hcover : ∀ d, d ∈ depsOf g m → d ∈ graphKeys g →
        markOf marks d = some Mark.final ∨ Task.enter d ∈ E ∨ above = some d)
      (hrest : DfsStack g marks rest chain (some m)) :
      DfsStack g marks (E ++ Task.leave m :: rest) (m :: chain) above

/-- The strict tail of `l` after the first occurrence of `a`. -/
def tailAfter (l : List String) (a : String) : List String :=
  (l.dropWhile (fun x => x ≠ a)).tail

/-- `l` is a reverse-topological listing: every edge source strictly
precedes its target. -/
def TopoOK (g : List (String × List String)) (l : List String) : Prop :=
  ∀ a b, Edge g a b → a ∈ l → b ∈ tailAfter l a

/-- The order produced so far lists exactly the `Final`-marked nodes. -/
def SortedMatches (marks : List (String × Mark)) (sorted : List String) : Prop :=
  ∀ n, n ∈ sorted ↔ markOf marks n = some .final

/-- The full loop invariant of the DFS. -/
def DfsInv (g : List (String × List String)) (marks : List (String × Mark))
    (tasks : List Task) (sorted : List String) (chain : List String) : Prop :=
  DfsStack g marks tasks chain none ∧
  (∀ n, markOf marks n = some Mark.temp ↔ n ∈ chain) ∧
  (∀ n mk, markOf marks n = some mk → n ∈ graphKeys g) ∧
  SortedMatches marks sorted ∧ sorted.Nodup ∧ TopoOK g sorted ∧
  chain.Nodup

/-- What a successful DFS run guarantees. -/
def DfsOk (g : List (String × List String)) (marks : List (String × Mark))
    (tasks : List Task) (marks' : List (String × Mark))
    (sorted' : List String) : Prop :=
  SortedMatches marks' sorted' ∧ sorted'.Nodup ∧ TopoOK g sorted' ∧
  FinalMono marks marks' ∧
  (∀ n, Task.enter n ∈ tasks → n ∈ graphKeys g →
    markOf marks' n = some Mark.final) ∧
  (∀ n, Task.leave n ∈ tasks → markOf marks' n = some Mark.final)


end Efa

namespace Efa

/-- A trivial `main` returning the integer 7, for witnesses. -/
def demoMainCo : CodeObject := ⟨[Value.int 7], 0, [], [], [.loadLit 0, .retVal]⟩

/-- Hash key of `demoMainCo`. -/
def demoMainHash : Hash := List.replicate 16 9

/-- A store whose only object is the demo `main`. -/
def demoMainDb : Database := ⟨[⟨demoMainHash, [], demoMainCo, true⟩], [("main", demoMainHash)]⟩

end Efa

namespace Efa

/-! ## Helper lemmas about the argument-popping loop and the locals map -/

theorem mkParams_enough (names : List String) (stack : List Value)
    (h : names.length ≤ stack.length) :
    mkParams names stack = .ok (names.zip stack, stack.drop names.length) := by
  induction names generalizing stack with
  | nil => simp [mkParams]
  | cons n ns ih =>
    cases stack with
    | nil => simp at h
    | cons v s =>
      have hs := ih s (Nat.le_of_succ_le_succ h)
      simp [mkParams, hs]

theorem mkParams_short (names : List String) (stack : List Value)
    (h : stack.length < names.length) :
    mkParams names stack =
      .error "not enough arguments on stack to call function with arity" := by
  induction names generalizing stack with
  | nil => simp at h
  | cons n ns ih =>
    cases stack with
    | nil => rfl
    | cons v s =>
      have hs := ih s (Nat.lt_of_succ_lt_succ h)
      simp [mkParams, hs]

theorem localsGet_insert_eq (m : List (String × Value)) (k : String) (v : Value) :
    localsGet (localsInsert m k v) k = some v := by
  simp [localsGet, localsInsert]

theorem localsGet_insert_ne (m : List (String × Value)) (k nm : String) (v : Value)
    (h : nm ≠ k) : localsGet (localsInsert m k v) nm = localsGet m nm := by
  simp only [localsGet, localsInsert]
  rw [List.find?_cons_of_neg _ (by simp [h.symm])]
  congr 1
  induction m with
  | nil => rfl
  | cons p rest ih =>
    by_cases hp : p.1 = k
    · rw [List.filter_cons_of_neg (by simp [hp])]
      rw [List.find?_cons_of_neg _ (by simp [hp, h.symm])]
      exact ih
    · rw [List.filter_cons_of_pos (by simp [hp])]
      by_cases hq : p.1 = nm
      · rw [List.find?_cons_of_pos _ (by simp [hq]),
          List.find?_cons_of_pos _ (by simp [hq])]
      · rw [List.find?_cons_of_neg _ (by simp [hq]),
          List.find?_cons_of_neg _ (by simp [hq])]
        exact ih

theorem localsGet_foldl (ps : List (String × Value)) (acc : List (String × Value))
    (nm : String) (h : (ps.map Prod.fst).Nodup) :
    localsGet (ps.foldl (fun m p => localsInsert m p.1 p.2) acc) nm =
      (((ps.find? (fun p => p.1 = nm)).map (·.2)).orElse
        (fun _ => localsGet acc nm)) := by
  induction ps generalizing acc with
  | nil => simp
  | cons p rest ih =>
    simp only [List.map_cons, List.nodup_cons] at h
    obtain ⟨hnot, hrest⟩ := h
    simp only [List.foldl_cons]
    rw [ih _ hrest]
    by_cases hq : p.1 = nm
    · subst hq
      rw [List.find?_cons_of_pos _ (by simp)]
      have hnone : rest.find? (fun q => q.1 = p.1) = none := by
        rw [List.find?_eq_none]
        intro q hq hmem
        simp at hmem
        exact hnot (by simpa [hmem] using List.mem_map_of_mem Prod.fst hq)
      rw [hnone]
      simp [localsGet_insert_eq]
    · rw [List.find?_cons_of_neg _ (by simp [hq])]
      cases hfind : rest.find? (fun q => q.1 = nm) with
      | some q => simp
      | none =>
        simp [localsGet_insert_ne _ _ _ _ (fun hh => hq hh.symm)]

theorem localsGet_ofPairs (ps : List (String × Value)) (nm : String)
    (h : (ps.map Prod.fst).Nodup) :
    localsGet (localsOfPairs ps) nm = (ps.find? (fun p => p.1 = nm)).map (·.2) := by
  rw [localsOfPairs, localsGet_foldl _ _ _ h]
  cases hf : ps.find? (fun p => p.1 = nm) <;> simp [localsGet]

/-! ## Helper lemmas about single steps of `Vm::exec` -/

theorem execStep_call_ok (co callee : CodeObject) (h : Hash) (s' : List Value)
    (loc : List (String × Value)) (ip : Nat) (fr_rest : List StackFrame)
    (dsc csc : Nat) (db : Database)
    (hget : co.code.get? ip = some .call)
    (hdb : db.get_code_object h = some callee)
    (hnames : callee.argcount ≤ callee.localnames.length)
    (hargs : callee.argcount ≤ s'.length) :
    execStep ⟨⟨co, .hashV h :: s', loc, ip⟩ :: fr_rest, dsc, csc, db⟩ =
      .next ⟨⟨callee, [],
              localsOfPairs ((callee.localnames.take callee.argcount).zip s'), 0⟩ ::
             ⟨co, s'.drop callee.argcount, loc, ip + 1⟩ :: fr_rest, dsc, csc, db⟩ := by
  have hlen : (callee.localnames.take callee.argcount).length ≤ s'.length := by
    simp [List.length_take]; omega
  have hmk := mkParams_enough _ _ hlen
  have htk : (callee.localnames.take callee.argcount).length = callee.argcount := by
    simp [List.length_take]; omega
  simp only [execStep, hget, hdb, hmk, htk]

theorem execStep_call_short (co callee : CodeObject) (h : Hash) (s' : List Value)
    (loc : List (String × Value)) (ip : Nat) (fr_rest : List StackFrame)
    (dsc csc : Nat) (db : Database)
    (hget : co.code.get? ip = some .call)
    (hdb : db.get_code_object h = some callee)
    (hnames : callee.argcount ≤ callee.localnames.length)
    (hargs : s'.length < callee.argcount) :
    execStep ⟨⟨co, .hashV h :: s', loc, ip⟩ :: fr_rest, dsc, csc, db⟩ =
      .err "not enough arguments on stack to call function with arity" := by
  have hlen : s'.length < (callee.localnames.take callee.argcount).length := by
    simp [List.length_take]; omega
  have hmk := mkParams_short _ _ hlen
  simp only [execStep, hget, hdb, hmk]

theorem execStep_callself_ok (co : CodeObject) (s : List Value)
    (loc : List (String × Value)) (ip : Nat) (fr_rest : List StackFrame)
    (dsc csc : Nat) (db : Database)
    (hget : co.code.get? ip = some .callSelf)
    (hnames : co.argcount ≤ co.localnames.length)
    (hargs : co.argcount ≤ s.length) :
    execStep ⟨⟨co, s, loc, ip⟩ :: fr_rest, dsc, csc, db⟩ =
      .next ⟨⟨co, [], localsOfPairs ((co.localnames.take co.argcount).zip s), 0⟩ ::
             ⟨co, s.drop co.argcount, loc, ip + 1⟩ :: fr_rest, dsc, csc, db⟩ := by
  have hlen : (co.localnames.take co.argcount).length ≤ s.length := by
    simp [List.length_take]; omega
  have hmk := mkParams_enough _ _ hlen
  have htk : (co.localnames.take co.argcount).length = co.argcount := by
    simp [List.length_take]; omega
  simp only [execStep, hget, hmk, htk]

theorem execStep_callself_short (co : CodeObject) (s : List Value)
    (loc : List (String × Value)) (ip : Nat) (fr_rest : List StackFrame)
    (dsc csc : Nat) (db : Database)
    (hget : co.code.get? ip = some .callSelf)
    (hnames : co.argcount ≤ co.localnames.length)
    (hargs : s.length < co.argcount) :
    execStep ⟨⟨co, s, loc, ip⟩ :: fr_rest, dsc, csc, db⟩ =
      .err "not enough arguments on stack to call function with arity" := by
  have hlen : s.length < (co.localnames.take co.argcount).length := by
    simp [List.length_take]; omega
  have hmk := mkParams_short _ _ hlen
  simp only [execStep, hget, hmk]

theorem exec_retVal_i32 (co : CodeObject) (rest : List Value)
    (loc : List (String × Value)) (ip dsc csc : Nat) (db : Database)
    (c : Int) (fuel : Nat)
    (hget : co.code.get? ip = some .retVal) :
    execLoop (fuel + 1) ⟨[⟨co, .intV .i32 c :: rest, loc, ip⟩], dsc, csc, db⟩ =
      .exit c := by
  simp only [execLoop, execStep, hget, List.isEmpty_nil, if_true]

theorem exec_retVal_non_i32 (co : CodeObject) (v : Value) (rest : List Value)
    (loc : List (String × Value)) (ip dsc csc : Nat) (db : Database)
    (fuel : Nat)
    (hget : co.code.get? ip = some .retVal)
    (hv : ∀ c : Int, v ≠ .intV .i32 c) :
    execLoop (fuel + 1) ⟨[⟨co, v :: rest, loc, ip⟩], dsc, csc, db⟩ =
      .err "main function can only return integers" := by
  simp only [execLoop, execStep, hget]
  cases v with
  | intV k x =>
    cases k with
    | i32 => exact absurd rfl (hv x)
    | _ => rfl
  | _ => rfl

theorem exec_ip_past_end (co : CodeObject) (s : List Value)
    (loc : List (String × Value)) (ip dsc csc : Nat) (db : Database)
    (fr_rest : List StackFrame) (fuel : Nat)
    (hget : co.code.get? ip = none) :
    execLoop (fuel + 1) ⟨⟨co, s, loc, ip⟩ :: fr_rest, dsc, csc, db⟩ = .exit 0 := by
  simp only [execLoop, execStep, hget]

theorem exec_ret_main (co : CodeObject) (s : List Value)
    (loc : List (String × Value)) (ip dsc csc : Nat) (db : Database)
    (fuel : Nat)
    (hget : co.code.get? ip = some .ret) :
    execLoop (fuel + 2) ⟨[⟨co, s, loc, ip⟩], dsc, csc, db⟩ = .exit 0 := by
  simp only [execLoop, execStep, hget, List.tail_cons]

end Efa

namespace Efa

/-! ## Claim theorems -/

/-- Claim C2.  The first conjunct shows the failing input: a `LoadDyn`
whose name (`missing`) is not in the input set makes
`resolve_dyn_calls` fail with its "should have already been hashed"
error instead of leaving the instruction as a `LoadDyn`.  The second
conjunct shows the positive half of the claim on a two-function input:
the `LoadDyn double` of `main` is replaced by `LoadFunc` of the hash of
the (rewritten) `double`. -/
theorem claim_C2_unresolved_loadDyn_fails_pass :
    resolveDynCalls [("main", coMainMissing)] =
      .error "dyn_name should have already been hashed" ∧
    resolveDynCalls [("double", coDouble), ("main", coMainDouble)] =
      .ok [("double", coDouble),
           ("main", { coMainDouble with
                      code := [.loadLit 0, .loadFunc coDouble.hash, .call,
                               .retVal] })] :=
  ⟨rfl, rfl⟩

/-- Claim C3.  `STACK_CAP` is 256, but `Vm::exec` never reads the caps:
a `main` that is a single `CallSelf` is still running with 401 stacked
frames after 400 steps, and a push-and-loop `main` is still running
with 300 operand-stack entries after 600 steps — no stack-overflow
error is ever surfaced. -/
theorem claim_C3_stack_caps_not_enforced :
    STACK_CAP = 256 ∧
    callStackLenAfter 400 bombState = some 401 ∧
    topOperandLenAfter 600 opBombState = some 300 :=
  ⟨rfl, rfl, rfl⟩

/-- Claim C4, counterexample: inserting the same code object (identical
serialized bytes) twice into a fresh store succeeds the first time and
fails the second time — the second insert is not an idempotent no-op. -/
theorem claim_C4_second_insert_fails : insertTwice demoObj = (true, false) := rfl

/-- Claim C4, amended: the hash returned by a successful insert is the
(deterministic) digest of the serialized object, and a second insert of
the same bytes is rejected by the `UNIQUE` constraint on the
`code_objs` table with an error instead of succeeding as a no-op. -/
theorem claim_C4_insert_rejects_duplicate_bytes (db : Database)
    (co : CodeObject) (m m' : Bool) (h : Hash) (db1 : Database)
    (hins : db.insert_code_object co m = .ok (h, db1)) :
    h = co.hash ∧
    db1.insert_code_object co m' =
      .error "UNIQUE constraint failed: code_objs" := by
  simp only [Database.insert_code_object] at hins ⊢
  split at hins
  · exact absurd hins (by simp)
  · rw [Except.ok.injEq, Prod.mk.injEq] at hins
    obtain ⟨hh, hdb⟩ := hins
    subst hdb
    refine ⟨hh.symm, ?_⟩
    rw [if_pos]
    simp [List.any_append, hh]

/-- Witness for the amended C4 theorem at a concrete object: inserting
`demoObj` into the store that already holds it fails with the
uniqueness error. -/
theorem claim_C4_insert_rejects_duplicate_bytes_witness :
    demoObj.hash = demoObj.hash ∧
    demoDb1.insert_code_object demoObj true =
      .error "UNIQUE constraint failed: code_objs" :=
  claim_C4_insert_rejects_duplicate_bytes Database.temp demoObj false true
    demoObj.hash demoDb1 rfl

/-- Claim C6.  With a label `L0` in scope: `jmp_ne L0` is rejected as an
unknown instruction (`get_jump_instr` has no `jmp_ne` arm), and
`ret_val` is accepted but assembles to `Instr::Return` (it only clears
the `is_void` flag) — not to `Instr::ReturnVal`.  The remaining
conjuncts show the neighbouring mnemonics assemble as the grammar
says. -/
theorem claim_C6_mnemonic_divergences :
    parseLine [("L0", 0)] "jmp_ne L0" = .error (.unknownInstr "jmp_ne") ∧
    parseLine [("L0", 0)] "ret_val" = .ok (.instrTok .ret, true) ∧
    parseLine [("L0", 0)] "jmp_le L0" = .ok (.instrTok (.jumpLe 0), false) ∧
    parseLine [("L0", 0)] "jmp_t L0" = .ok (.instrTok (.jumpT 0), false) ∧
    parseLine [("L0", 0)] "load_arg 2" = .ok (.instrTok (.loadArg 2), false) ∧
    parseLine [("L0", 0)] "load_dyn $foo" =
      .ok (.instrTok (.loadDyn "foo"), false) ∧
    getJumpInstr "jmp_ne" [("L0", 0)] "L0" = .error (.unknownInstr "jmp_ne") ∧
    decodeBase "ret_val" "ret_val" none none = .ok (.ret, true) :=
  ⟨rfl, rfl, rfl, rfl, rfl, rfl, rfl, rfl⟩

/-- Claim C7.  Out-of-bounds literal, label and local indices and `Dup`
on an empty stack are host panics (`.crash`), not surfaced errors; `Pop`
on an empty stack is silently ignored and the program exits normally;
only `JumpT` surfaces a label error.  Each conjunct runs one concrete
single-instruction `main`. -/
theorem claim_C7_oob_step_outcomes :
    execLoop 2 (singleFrameState ⟨[], 0, [], [], [.loadLit 0]⟩ [] Database.temp) =
      .crash "index out of bounds" ∧
    execLoop 2 (singleFrameState ⟨[], 0, [], [], [.jump 0]⟩ [] Database.temp) =
      .crash "index out of bounds" ∧
    execLoop 2 (singleFrameState ⟨[], 0, [], [], [.storeLocal 5]⟩
        [Value.int 1] Database.temp) =
      .crash "index out of bounds" ∧
    execLoop 2 (singleFrameState ⟨[], 0, ["x"], [], [.storeLocal 0]⟩
        [] Database.temp) =
      .crash "called unwrap on a None value" ∧
    execLoop 3 (singleFrameState ⟨[], 0, [], [], [.pop, .ret]⟩ [] Database.temp) =
      .exit 0 ∧
    execLoop 2 (singleFrameState ⟨[], 0, [], [], [.dup]⟩ [] Database.temp) =
      .crash "called unwrap on a None value" ∧
    execLoop 2 (singleFrameState ⟨[], 0, [], [], [.jumpT 0]⟩
        [Value.boolV true] Database.temp) =
      .err "label does not exist" :=
  ⟨rfl, rfl, rfl, rfl, rfl, rfl, rfl⟩

end Efa

namespace Efa

/-- Claim C8.  `main` finishing on `ReturnVal` with an `I32` on top
exits with that value; finishing on a `ReturnVal` of any other variant
is the surfaced "main function can only return integers" error; an
instruction pointer past the end of the code, or an explicit `Return`
from `main`, exits with code 0; and `run_main_function` is exactly the
exec loop started on the stored `main` object with an empty frame. -/
theorem claim_C8_exit_code_protocol :
    (∀ (co : CodeObject) (rest : List Value) (loc : List (String × Value))
       (ip dsc csc : Nat) (db : Database) (c : Int) (fuel : Nat),
       co.code.get? ip = some .retVal →
       execLoop (fuel + 1) ⟨[⟨co, .intV .i32 c :: rest, loc, ip⟩], dsc, csc, db⟩ =
         .exit c) ∧
    (∀ (co : CodeObject) (v : Value) (rest : List Value)
       (loc : List (String × Value)) (ip dsc csc : Nat) (db : Database)
       (fuel : Nat),
       co.code.get? ip = some .retVal → (∀ c : Int, v ≠ .intV .i32 c) →
       execLoop (fuel + 1) ⟨[⟨co, v :: rest, loc, ip⟩], dsc, csc, db⟩ =
         .err "main function can only return integers") ∧
    (∀ (co : CodeObject) (s : List Value) (loc : List (String × Value))
       (ip dsc csc : Nat) (db : Database) (fr_rest : List StackFrame)
       (fuel : Nat),
       co.code.get? ip = none →
       execLoop (fuel + 1) ⟨⟨co, s, loc, ip⟩ :: fr_rest, dsc, csc, db⟩ = .exit 0) ∧
    (∀ (co : CodeObject) (s : List Value) (loc : List (String × Value))
       (ip dsc csc : Nat) (db : Database) (fuel : Nat),
       co.code.get? ip = some .ret →
       execLoop (fuel + 2) ⟨[⟨co, s, loc, ip⟩], dsc, csc, db⟩ = .exit 0) ∧
    (∀ (db : Database) (fuel : Nat) (h : Hash) (co : CodeObject),
       db.get_main_object = some (h, co) →
       runMainFunction db fuel =
         execLoop fuel ⟨[⟨co, [], [], 0⟩], STACK_CAP, STACK_CAP, db⟩) :=
  ⟨exec_retVal_i32, exec_retVal_non_i32, exec_ip_past_end, exec_ret_main,
   fun db fuel h co hm => by simp [runMainFunction, hm]⟩

/-- Witness for C8: each conjunct instantiated on a one-instruction
`main`. -/
theorem claim_C8_exit_code_protocol_witness :
    execLoop 1 ⟨[⟨⟨[], 0, [], [], [.retVal]⟩, [.intV .i32 7], [], 0⟩], 256, 256,
        Database.temp⟩ = .exit 7 ∧
    execLoop 1 ⟨[⟨⟨[], 0, [], [], [.retVal]⟩, [.strV "seven"], [], 0⟩], 256, 256,
        Database.temp⟩ = .err "main function can only return integers" ∧
    execLoop 1 ⟨[⟨⟨[], 0, [], [], [.nop]⟩, [], [], 3⟩], 256, 256,
        Database.temp⟩ = .exit 0 ∧
    execLoop 2 ⟨[⟨⟨[], 0, [], [], [.ret]⟩, [], [], 0⟩], 256, 256,
        Database.temp⟩ = .exit 0 ∧
    runMainFunction demoMainDb 5 =
      execLoop 5 ⟨[⟨demoMainCo, [], [], 0⟩], STACK_CAP, STACK_CAP, demoMainDb⟩ :=
  ⟨claim_C8_exit_code_protocol.1 _ [] [] 0 256 256 Database.temp 7 0 rfl,
   claim_C8_exit_code_protocol.2.1 _ _ [] [] 0 256 256 Database.temp 0 rfl
     (fun c h => by cases h),
   claim_C8_exit_code_protocol.2.2.1 _ [] [] 3 256 256 Database.temp [] 0 rfl,
   claim_C8_exit_code_protocol.2.2.2.1 _ [] [] 0 256 256 Database.temp 0 rfl,
   claim_C8_exit_code_protocol.2.2.2.2 demoMainDb 5 demoMainHash demoMainCo rfl⟩

end Efa

namespace Efa

/-- Claim C9.  A `Call` whose popped hash resolves to a callee with
`argcount = n` (and at least `n` local names) pops exactly `n` further
values and binds them in `localnames[0..n]` order — the frame locals are
the collected `(name, value)` pairs of `localnames.take n` zipped with
the caller stack, first pop to first name — leaving the rest of the
caller stack; with fewer than `n` values the step fails with the arity
error.  `CallSelf` does the same against the current frame code object
without popping a hash. -/
theorem claim_C9_call_argument_protocol :
    (∀ (co callee : CodeObject) (h : Hash) (s' : List Value)
       (loc : List (String × Value)) (ip : Nat) (fr_rest : List StackFrame)
       (dsc csc : Nat) (db : Database),
       co.code.get? ip = some .call →
       db.get_code_object h = some callee →
       callee.argcount ≤ callee.localnames.length →
       callee.argcount ≤ s'.length →
       execStep ⟨⟨co, .hashV h :: s', loc, ip⟩ :: fr_rest, dsc, csc, db⟩ =
         .next ⟨⟨callee, [],
                 localsOfPairs ((callee.localnames.take callee.argcount).zip s'),
                 0⟩ ::
                ⟨co, s'.drop callee.argcount, loc, ip + 1⟩ :: fr_rest,
                dsc, csc, db⟩) ∧
    (∀ (co callee : CodeObject) (h : Hash) (s' : List Value)
       (loc : List (String × Value)) (ip : Nat) (fr_rest : List StackFrame)
       (dsc csc : Nat) (db : Database),
       co.code.get? ip = some .call →
       db.get_code_object h = some callee →
       callee.argcount ≤ callee.localnames.length →
       s'.length < callee.argcount →
       execStep ⟨⟨co, .hashV h :: s', loc, ip⟩ :: fr_rest, dsc, csc, db⟩ =
         .err "not enough arguments on stack to call function with arity") ∧
    (∀ (co : CodeObject) (s : List Value) (loc : List (String × Value))
       (ip : Nat) (fr_rest : List StackFrame) (dsc csc : Nat) (db : Database),
       co.code.get? ip = some .callSelf →
       co.argcount ≤ co.localnames.length →
       co.argcount ≤ s.length →
       execStep ⟨⟨co, s, loc, ip⟩ :: fr_rest, dsc, csc, db⟩ =
         .next ⟨⟨co, [], localsOfPairs ((co.localnames.take co.argcount).zip s),
                 0⟩ ::
                ⟨co, s.drop co.argcount, loc, ip + 1⟩ :: fr_rest, dsc, csc, db⟩) ∧
    (∀ (co : CodeObject) (s : List Value) (loc : List (String × Value))
       (ip : Nat) (fr_rest : List StackFrame) (dsc csc : Nat) (db : Database),
       co.code.get? ip = some .callSelf →
       co.argcount ≤ co.localnames.length →
       s.length < co.argcount →
       execStep ⟨⟨co, s, loc, ip⟩ :: fr_rest, dsc, csc, db⟩ =
         .err "not enough arguments on stack to call function with arity") :=
  ⟨execStep_call_ok, execStep_call_short, execStep_callself_ok,
   execStep_callself_short⟩

/-- Witness for C9: the four conjuncts at a concrete two-argument callee
(`demoCallee`, `demoSelfCo`) with full and short stacks. -/
theorem claim_C9_call_argument_protocol_witness :
    execStep ⟨[⟨demoCaller, [.hashV demoCalleeHash, .intV .i32 1, .intV .i32 2],
        [], 0⟩], 256, 256, demoDb⟩ =
      .next ⟨[⟨demoCallee, [],
              localsOfPairs ((demoCallee.localnames.take demoCallee.argcount).zip
                [.intV .i32 1, .intV .i32 2]), 0⟩,
             ⟨demoCaller, [], [], 1⟩], 256, 256, demoDb⟩ ∧
    execStep ⟨[⟨demoCaller, [.hashV demoCalleeHash, .intV .i32 1], [], 0⟩],
        256, 256, demoDb⟩ =
      .err "not enough arguments on stack to call function with arity" ∧
    execStep ⟨[⟨demoSelfCo, [.intV .i32 1, .intV .i32 2], [], 1⟩], 256, 256,
        demoDb⟩ =
      .next ⟨[⟨demoSelfCo, [],
              localsOfPairs ((demoSelfCo.localnames.take demoSelfCo.argcount).zip
                [.intV .i32 1, .intV .i32 2]), 0⟩,
             ⟨demoSelfCo, [], [], 2⟩], 256, 256, demoDb⟩ ∧
    execStep ⟨[⟨demoSelfCo, [.intV .i32 1], [], 1⟩], 256, 256, demoDb⟩ =
      .err "not enough arguments on stack to call function with arity" := by
  refine ⟨?_, ?_, ?_, ?_⟩
  · have := claim_C9_call_argument_protocol.1 demoCaller demoCallee demoCalleeHash
      [.intV .i32 1, .intV .i32 2] [] 0 [] 256 256 demoDb rfl rfl
      (by decide) (by decide)
    simpa using this
  · exact claim_C9_call_argument_protocol.2.1 demoCaller demoCallee demoCalleeHash
      [.intV .i32 1] [] 0 [] 256 256 demoDb rfl rfl (by decide) (by decide)
  · have := claim_C9_call_argument_protocol.2.2.1 demoSelfCo
      [.intV .i32 1, .intV .i32 2] [] 1 [] 256 256 demoDb rfl (by decide)
      (by decide)
    simpa using this
  · exact claim_C9_call_argument_protocol.2.2.2 demoSelfCo [.intV .i32 1] [] 1
      [] 256 256 demoDb rfl (by decide) (by decide)

end Efa

namespace Efa

/-- Claim C10.  Every frame pushed by `Call` or `CallSelf` starts with
an empty operand stack, instruction pointer 0, and a locals map that is
exactly the popped argument bindings: looking up any name yields
precisely what the zipped `(parameter name, popped value)` list binds,
so non-parameter locals are absent.  Reading such an absent local with
`LoadLocal` surfaces an error, not a default value. -/
theorem claim_C10_new_frame_initialization :
    (∀ (co callee : CodeObject) (h : Hash) (s' : List Value)
       (loc : List (String × Value)) (ip : Nat) (fr_rest : List StackFrame)
       (dsc csc : Nat) (db : Database),
       co.code.get? ip = some .call →
       db.get_code_object h = some callee →
       callee.argcount ≤ callee.localnames.length →
       callee.argcount ≤ s'.length →
       (callee.localnames.take callee.argcount).Nodup →
       ∃ st' : VmState,
         execStep ⟨⟨co, .hashV h :: s', loc, ip⟩ :: fr_rest, dsc, csc, db⟩ =
           .next st' ∧
         ∃ (nf : StackFrame) (fr' : List StackFrame),
           st'.call_stack = nf :: fr' ∧
           nf.code_obj = callee ∧ nf.stack = [] ∧ nf.instruction = 0 ∧
           (∀ nm : String, localsGet nf.locals nm =
             (((callee.localnames.take callee.argcount).zip s').find?
               (fun p => p.1 = nm)).map (·.2))) ∧
    (∀ (co : CodeObject) (s : List Value) (loc : List (String × Value))
       (ip : Nat) (fr_rest : List StackFrame) (dsc csc : Nat) (db : Database),
       co.code.get? ip = some .callSelf →
       co.argcount ≤ co.localnames.length →
       co.argcount ≤ s.length →
       (co.localnames.take co.argcount).Nodup →
       ∃ st' : VmState,
         execStep ⟨⟨co, s, loc, ip⟩ :: fr_rest, dsc, csc, db⟩ = .next st' ∧
         ∃ (nf : StackFrame) (fr' : List StackFrame),
           st'.call_stack = nf :: fr' ∧
           nf.code_obj = co ∧ nf.stack = [] ∧ nf.instruction = 0 ∧
           (∀ nm : String, localsGet nf.locals nm =
             (((co.localnames.take co.argcount).zip s).find?
               (fun p => p.1 = nm)).map (·.2))) ∧
    (∀ (co : CodeObject) (s : List Value) (loc : List (String × Value))
       (ip : Nat) (fr_rest : List StackFrame) (dsc csc : Nat) (db : Database)
       (i : Nat) (nm : String),
       co.code.get? ip = some (.loadLocal i) →
       co.localnames.get? (i + co.argcount) = some nm →
       localsGet loc nm = none →
       execStep ⟨⟨co, s, loc, ip⟩ :: fr_rest, dsc, csc, db⟩ =
         .err "local with index is out of bounds") := by
  refine ⟨?_, ?_, ?_⟩
  · intro co callee h s' loc ip fr_rest dsc csc db hget hdb hnames hargs hnd
    refine ⟨_, execStep_call_ok co callee h s' loc ip fr_rest dsc csc db
      hget hdb hnames hargs, _, _, rfl, rfl, rfl, rfl, ?_⟩
    intro nm
    have hlen : (callee.localnames.take callee.argcount).length ≤ s'.length := by
      simp [List.length_take]; omega
    have hkeys := List.map_fst_zip (callee.localnames.take callee.argcount) s' hlen
    exact localsGet_ofPairs _ nm (by rw [hkeys]; exact hnd)
  · intro co s loc ip fr_rest dsc csc db hget hnames hargs hnd
    refine ⟨_, execStep_callself_ok co s loc ip fr_rest dsc csc db
      hget hnames hargs, _, _, rfl, rfl, rfl, rfl, ?_⟩
    intro nm
    have hlen : (co.localnames.take co.argcount).length ≤ s.length := by
      simp [List.length_take]; omega
    have hkeys := List.map_fst_zip (co.localnames.take co.argcount) s hlen
    exact localsGet_ofPairs _ nm (by rw [hkeys]; exact hnd)
  · intro co s loc ip fr_rest dsc csc db i nm hget hname hloc
    have hlt : i + co.argcount < co.localnames.length :=
      (List.get?_eq_some.mp hname).1
    simp only [execStep, hget]
    rw [if_neg (by omega)]
    simp only [hname, hloc]

end Efa

namespace Efa

/-- Witness for C10 on the concrete demo callee, the `CallSelf` object
and a `LoadLocal` of an unset local. -/
theorem claim_C10_new_frame_initialization_witness :
    (∃ st' : VmState,
       execStep ⟨[⟨demoCaller, [.hashV demoCalleeHash, .intV .i32 1,
           .intV .i32 2], [], 0⟩], 256, 256, demoDb⟩ = .next st' ∧
       ∃ (nf : StackFrame) (fr' : List StackFrame),
         st'.call_stack = nf :: fr' ∧
         nf.code_obj = demoCallee ∧ nf.stack = [] ∧ nf.instruction = 0 ∧
         (∀ nm : String, localsGet nf.locals nm =
           (((demoCallee.localnames.take demoCallee.argcount).zip
             [.intV .i32 1, .intV .i32 2]).find?
               (fun p => p.1 = nm)).map (·.2))) ∧
    (∃ st' : VmState,
       execStep ⟨[⟨demoSelfCo, [.intV .i32 1, .intV .i32 2], [], 1⟩],
           256, 256, demoDb⟩ = .next st' ∧
       ∃ (nf : StackFrame) (fr' : List StackFrame),
         st'.call_stack = nf :: fr' ∧
         nf.code_obj = demoSelfCo ∧ nf.stack = [] ∧ nf.instruction = 0 ∧
         (∀ nm : String, localsGet nf.locals nm =
           (((demoSelfCo.localnames.take demoSelfCo.argcount).zip
             [.intV .i32 1, .intV .i32 2]).find?
               (fun p => p.1 = nm)).map (·.2))) ∧
    execStep ⟨[⟨⟨[], 0, ["x"], [], [.loadLocal 0]⟩, [], [], 0⟩], 256, 256,
        Database.temp⟩ = .err "local with index is out of bounds" :=
  ⟨claim_C10_new_frame_initialization.1 demoCaller demoCallee demoCalleeHash
     [.intV .i32 1, .intV .i32 2] [] 0 [] 256 256 demoDb rfl rfl
     (by decide) (by decide) (by decide),
   claim_C10_new_frame_initialization.2.1 demoSelfCo [.intV .i32 1, .intV .i32 2] [] 1 [] 256 256
     demoDb rfl (by decide) (by decide) (by decide),
   claim_C10_new_frame_initialization.2.2 _ [] [] 0 [] 256 256 Database.temp 0 "x" rfl rfl rfl⟩

end Efa

namespace Efa

theorem markOf_cons_self (marks : List (String × Mark)) (n : String) (m : Mark) :
    markOf ((n, m) :: marks) n = some m := by
  simp [markOf]

theorem markOf_cons_ne (marks : List (String × Mark)) (n x : String) (m : Mark)
    (h : x ≠ n) : markOf ((n, m) :: marks) x = markOf marks x := by
  simp only [markOf]
  rw [List.find?_cons_of_neg _ (by simp [h.symm])]

theorem EdgePath_append (g : List (String × List String)) (a : String)
    (p : List String) (b c : String)
    (hp : EdgePath g a p b) (he : Edge g b c) : EdgePath g a (p ++ [b]) c := by
  induction p generalizing a with
  | nil => exact ⟨hp, he⟩
  | cons x xs ih => exact ⟨hp.1, ih x hp.2⟩

theorem DfsStack_mono (g : List (String × List String))
    (marks marks' : List (String × Mark)) (tasks : List Task)
    (chain : List String) (above : Option String)
    (hmono : FinalMono marks marks')
    (h : DfsStack g marks tasks chain above) :
    DfsStack g marks' tasks chain above := by
  induction h with
  | root E above hE => exact .root E above hE
  | frame E m rest chain above hE hm habove hcover hrest ih =>
    refine .frame E m rest chain above hE hm habove ?_ ih
    intro d hd hdk
    rcases hcover d hd hdk with hc | hc | hc
    · exact .inl (hmono d hc)
    · exact .inr (.inl hc)
    · exact .inr (.inr hc)

theorem DfsStack_chain_keys (g : List (String × List String))
    (marks : List (String × Mark)) (tasks : List Task)
    (chain : List String) (above : Option String)
    (h : DfsStack g marks tasks chain above) :
    ∀ x ∈ chain, x ∈ graphKeys g := by
  induction h with
  | root E above hE => intro x hx; cases hx
  | frame E m rest chain above hE hm habove hcover hrest ih =>
    intro x hx
    rcases List.mem_cons.mp hx with rfl | hx
    · exact hm
    · exact ih x hx

theorem DfsStack_climb (g : List (String × List String))
    (marks : List (String × Mark)) (tasks : List Task)
    (chain : List String) (above : Option String)
    (h : DfsStack g marks tasks chain above) :
    ∀ n ∈ chain, ∃ hd tl, chain = hd :: tl ∧
      (n = hd ∨ ∃ p, EdgePath g n p hd) := by
  induction h with
  | root E above hE => intro n hn; cases hn
  | frame E m rest chainr above hE hm habove hcover hrest ih =>
    intro n hn
    refine ⟨m, chainr, rfl, ?_⟩
    rcases List.mem_cons.mp hn with rfl | hn
    · exact .inl rfl
    · obtain ⟨hd', tl', hceq, hcl⟩ := ih n hn
      have hedge : Edge g hd' m := by
        subst hceq
        cases hrest with
        | frame E₂ m₂ rest₂ chain₂ above₂ hE₂ hm₂ habove₂ hcover₂ hrest₂ =>
          exact ⟨hm₂, hm, habove₂ m rfl⟩
      rcases hcl with rfl | ⟨p, hp⟩
      · exact .inr ⟨[], hedge⟩
      · exact .inr ⟨p ++ [hd'], EdgePath_append g n p hd' m hp hedge⟩

end Efa

namespace Efa

theorem DfsStack_drop_enter (g : List (String × List String))
    (marks : List (String × Mark)) (n : String) (rest : List Task)
    (chain : List String) (above : Option String)
    (hn : markOf marks n = some Mark.final ∨ n ∉ graphKeys g)
    (h : DfsStack g marks (Task.enter n :: rest) chain above) :
    DfsStack g marks rest chain above := by
  generalize heq : Task.enter n :: rest = tasks at h
  cases h
  case root hE =>
    subst heq
    exact .root rest above (fun t ht => hE t (List.mem_cons_of_mem _ ht))
  case frame E m rest' chain' hE hm hrest habove hcover =>
    cases E with
    | nil => simp at heq
    | cons t E' =>
      rw [List.cons_append] at heq
      obtain ⟨ht, hrest_eq⟩ := List.cons.inj heq
      subst hrest_eq
      refine .frame E' m rest' chain' above
        (fun t ht => hE t (List.mem_cons_of_mem _ ht)) hm habove ?_ hrest
      intro d hd hdk
      rcases hcover d hd hdk with hc | hc | hc
      · exact .inl hc
      · rcases List.mem_cons.mp hc with hc' | hc'
        · rw [← ht] at hc'
          have hdn : d = n := Task.enter.inj hc'
          subst hdn
          rcases hn with hfin | hnk
          · exact .inl hfin
          · exact absurd hdk hnk
        · exact .inr (.inl hc')
      · exact .inr (.inr hc)

theorem DfsStack_shift (g : List (String × List String))
    (marks : List (String × Mark)) (n : String) (rest : List Task)
    (chain : List String)
    (h : DfsStack g marks (Task.enter n :: rest) chain none) :
    DfsStack g marks rest chain (some n) := by
  generalize heq : Task.enter n :: rest = tasks at h
  cases h
  case root hE =>
    subst heq
    exact .root rest _ (fun t ht => hE t (List.mem_cons_of_mem _ ht))
  case frame E m rest' chain' hE hm hrest habove hcover =>
    cases E with
    | nil => simp at heq
    | cons t E' =>
      rw [List.cons_append] at heq
      obtain ⟨ht, hrest_eq⟩ := List.cons.inj heq
      subst hrest_eq
      have hnd : n ∈ depsOf g m := by
        obtain ⟨d, hd, hdd⟩ := hE t (List.mem_cons_self _ _)
        rw [← ht] at hd
        rw [← Task.enter.inj hd] at hdd
        exact hdd
      refine .frame E' m rest' chain' (some n)
        (fun t ht => hE t (List.mem_cons_of_mem _ ht)) hm
        (fun a ha => by rwa [← Option.some.inj ha]) ?_ hrest
      intro d hd hdk
      rcases hcover d hd hdk with hc | hc | hc
      · exact .inl hc
      · rcases List.mem_cons.mp hc with hc' | hc'
        · rw [← ht] at hc'
          have hdn : d = n := Task.enter.inj hc'
          subst hdn
          exact .inr (.inr rfl)
        · exact .inr (.inl hc')
      · cases hc

end Efa

namespace Efa

theorem cycle_of_temp_enter (g : List (String × List String))
    (marks : List (String × Mark)) (n : String) (rest : List Task)
    (chain : List String)
    (hstack : DfsStack g marks (Task.enter n :: rest) chain none)
    (hkeys : ∀ x ∈ chain, x ∈ graphKeys g)
    (hn : n ∈ chain) : HasCycle g := by
  obtain ⟨hd, tl, hceq, hcl⟩ := DfsStack_climb g marks _ chain none hstack n hn
  generalize heq : Task.enter n :: rest = tasks at hstack
  cases hstack
  case root hE =>
    rw [hceq] at hn
    cases hceq
  case frame E m rest' chain' hE hm hrest habove hcover =>
    have hhd : hd = m := by
      have := hceq
      rw [List.cons.injEq] at this
      exact this.1.symm
    subst hhd
    cases E with
    | nil => simp at heq
    | cons t E' =>
      rw [List.cons_append] at heq
      obtain ⟨ht, _⟩ := List.cons.inj heq
      have hnd : n ∈ depsOf g hd := by
        obtain ⟨d, hdt, hdd⟩ := hE t (List.mem_cons_self _ _)
        rw [← ht] at hdt
        rw [← Task.enter.inj hdt] at hdd
        exact hdd
      have hedge : Edge g hd n := ⟨hm, hkeys n hn, hnd⟩
      rcases hcl with rfl | ⟨p, hp⟩
      · exact ⟨n, [], hedge⟩
      · exact ⟨n, p ++ [hd], EdgePath_append g n p hd n hp hedge⟩

theorem DfsStack_close (g : List (String × List String))
    (marks marks2 : List (String × Mark)) (rest : List Task)
    (chain' : List String) (n : String)
    (hmono : FinalMono marks marks2) (hnf : markOf marks2 n = some Mark.final)
    (h : DfsStack g marks rest chain' (some n)) :
    DfsStack g marks2 rest chain' none := by
  cases h
  case root hE => exact .root _ _ hE
  case frame E2 m2 rest2 chain2 hE hm hrest habove hcover =>
    refine .frame E2 m2 rest2 chain2 none hE hm (by simp) ?_
      (DfsStack_mono g marks marks2 _ _ _ hmono hrest)
    intro d hd hdk
    rcases hcover d hd hdk with hc | hc | hc
    · exact .inl (hmono d hc)
    · exact .inr (.inl hc)
    · refine .inl ?_
      rw [← Option.some.inj hc]
      exact hnf

theorem finalMono_cons_temp (marks : List (String × Mark)) (n : String)
    (hn : markOf marks n = none) :
    FinalMono marks ((n, Mark.temp) :: marks) := by
  intro x hx
  have hxn : x ≠ n := by
    intro h; rw [h, hn] at hx; cases hx
  rw [markOf_cons_ne _ _ _ _ hxn]
  exact hx

theorem finalMono_cons_final (marks : List (String × Mark)) (n : String) :
    FinalMono marks ((n, Mark.final) :: marks) := by
  intro x hx
  by_cases hxn : x = n
  · subst hxn; exact markOf_cons_self _ _ _
  · rw [markOf_cons_ne _ _ _ _ hxn]; exact hx

theorem tailAfter_cons_self (l : List String) (n : String) :
    tailAfter (n :: l) n = l := by
  simp [tailAfter, List.dropWhile]

theorem tailAfter_cons_ne (l : List String) (n a : String) (h : n ≠ a) :
    tailAfter (n :: l) a = tailAfter l a := by
  simp [tailAfter, List.dropWhile, h]

end Efa

namespace Efa

theorem not_key_of_find?_none (g : List (String × List String)) (n : String)
    (h : g.find? (fun p => p.1 = n) = none) : n ∉ graphKeys g := by
  intro hmem
  obtain ⟨p, hp, hfst⟩ := List.mem_map.mp hmem
  have := List.find?_eq_none.mp h p hp
  simp [hfst] at this

theorem find?_some_info (g : List (String × List String)) (n n' : String)
    (deps : List String)
    (h : g.find? (fun p => p.1 = n) = some (n', deps)) :
    n' = n ∧ n ∈ graphKeys g ∧ depsOf g n = deps := by
  have hmem := List.mem_of_find?_eq_some h
  have hpred := List.find?_some h
  simp only [decide_eq_true_eq] at hpred
  refine ⟨hpred, ?_, ?_⟩
  · rw [← hpred]
    exact List.mem_map_of_mem Prod.fst hmem
  · simp [depsOf, h]

theorem finals_cons_temp (marks : List (String × Mark)) (n : String)
    (hn : markOf marks n = none) (x : String) :
    (markOf ((n, Mark.temp) :: marks) x = some Mark.final ↔
      markOf marks x = some Mark.final) := by
  by_cases hxn : x = n
  · subst hxn
    rw [markOf_cons_self, hn]
    simp
  · rw [markOf_cons_ne _ _ _ _ hxn]

theorem finals_cons_final (marks : List (String × Mark)) (n : String)
    (x : String) :
    (markOf ((n, Mark.final) :: marks) x = some Mark.final ↔
      (x = n ∨ markOf marks x = some Mark.final)) := by
  by_cases hxn : x = n
  · subst hxn
    rw [markOf_cons_self]
    simp
  · rw [markOf_cons_ne _ _ _ _ hxn]
    simp [hxn]

theorem temps_cons_temp (marks : List (String × Mark)) (n : String)
    (x : String) :
    (markOf ((n, Mark.temp) :: marks) x = some Mark.temp ↔
      (x = n ∨ markOf marks x = some Mark.temp)) := by
  by_cases hxn : x = n
  · subst hxn
    rw [markOf_cons_self]
    simp
  · rw [markOf_cons_ne _ _ _ _ hxn]
    simp [hxn]

theorem temps_cons_final (marks : List (String × Mark)) (n : String)
    (x : String) :
    (markOf ((n, Mark.final) :: marks) x = some Mark.temp ↔
      (x ≠ n ∧ markOf marks x = some Mark.temp)) := by
  by_cases hxn : x = n
  · subst hxn
    rw [markOf_cons_self]
    simp
  · rw [markOf_cons_ne _ _ _ _ hxn]
    simp [hxn]

end Efa

namespace Efa

theorem dfsRun_sound (g : List (String × List String)) :
    ∀ (fuel : Nat) (tasks : List Task) (marks : List (String × Mark))
      (sorted chain : List String),
      DfsInv g marks tasks sorted chain →
      (dfsRun g fuel tasks marks sorted = .error cycleMsg → HasCycle g) ∧
      (∀ marks' sorted',
        dfsRun g fuel tasks marks sorted = .ok (marks', sorted') →
        DfsOk g marks tasks marks' sorted') := by
  intro fuel
  induction fuel with
  | zero =>
    intro tasks marks sorted chain _
    constructor
    · intro he
      exact absurd (Except.error.inj he) (by decide)
    · intro marks' sorted' he
      exact Except.noConfusion he
  | succ fuel ih =>
    intro tasks marks sorted chain hinv
    obtain ⟨hstack, htemps, hdom, hsm, hnds, htopo, hcnd⟩ := hinv
    cases tasks with
    | nil =>
      constructor
      · intro he
        exact Except.noConfusion he
      · intro marks' sorted' he
        obtain ⟨h1, h2⟩ := Prod.mk.inj (Except.ok.inj he)
        subst h1; subst h2
        exact ⟨hsm, hnds, htopo, fun x hx => hx,
          fun x hx _ => absurd hx (List.not_mem_nil _),
          fun x hx => absurd hx (List.not_mem_nil _)⟩
    | cons t rest =>
      cases t with
      | enter n =>
        cases hmk : markOf marks n with
        | some mk =>
          cases mk with
          | final =>
            have hred : dfsRun g (fuel+1) (Task.enter n :: rest) marks sorted =
                dfsRun g fuel rest marks sorted := by
              simp only [dfsRun, hmk]
            have hinv' : DfsInv g marks rest sorted chain :=
              ⟨DfsStack_drop_enter g marks n rest chain none (.inl hmk) hstack,
               htemps, hdom, hsm, hnds, htopo, hcnd⟩
            have hIH := ih rest marks sorted chain hinv'
            rw [hred]
            refine ⟨hIH.1, ?_⟩
            intro marks' sorted' he
            obtain ⟨osm, ond, otopo, omono, oent, olv⟩ := hIH.2 marks' sorted' he
            refine ⟨osm, ond, otopo, omono, ?_, ?_⟩
            · intro x hx hxk
              rcases List.mem_cons.mp hx with hx' | hx'
              · have hxn : x = n := Task.enter.inj hx'
                subst hxn
                exact omono x hmk
              · exact oent x hx' hxk
            · intro x hx
              rcases List.mem_cons.mp hx with hx' | hx'
              · exact absurd hx' (by simp)
              · exact olv x hx'
          | temp =>
            have hred : dfsRun g (fuel+1) (Task.enter n :: rest) marks sorted =
                .error cycleMsg := by
              simp only [dfsRun, hmk]
              rfl
            rw [hred]
            constructor
            · intro _
              refine cycle_of_temp_enter g marks n rest chain hstack ?_
                ((htemps n).mp hmk)
              intro x hx
              exact hdom x Mark.temp ((htemps x).mpr hx)
            · intro marks' sorted' he
              exact Except.noConfusion he
        | none =>
          cases hfind : g.find? (fun p => p.1 = n) with
          | none =>
            have hnk : n ∉ graphKeys g := not_key_of_find?_none g n hfind
            have hred : dfsRun g (fuel+1) (Task.enter n :: rest) marks sorted =
                dfsRun g fuel rest marks sorted := by
              simp only [dfsRun, hmk, hfind]
            have hinv' : DfsInv g marks rest sorted chain :=
              ⟨DfsStack_drop_enter g marks n rest chain none (.inr hnk) hstack,
               htemps, hdom, hsm, hnds, htopo, hcnd⟩
            have hIH := ih rest marks sorted chain hinv'
            rw [hred]
            refine ⟨hIH.1, ?_⟩
            intro marks' sorted' he
            obtain ⟨osm, ond, otopo, omono, oent, olv⟩ := hIH.2 marks' sorted' he
            refine ⟨osm, ond, otopo, omono, ?_, ?_⟩
            · intro x hx hxk
              rcases List.mem_cons.mp hx with hx' | hx'
              · have hxn : x = n := Task.enter.inj hx'
                subst hxn
                exact absurd hxk hnk
              · exact oent x hx' hxk
            · intro x hx
              rcases List.mem_cons.mp hx with hx' | hx'
              · exact absurd hx' (by simp)
              · exact olv x hx'
          | some pr =>
            obtain ⟨n', deps⟩ := pr
            obtain ⟨hn', hnkey, hdeps⟩ := find?_some_info g n n' deps hfind
            rw [hn'] at hfind
            have hred : dfsRun g (fuel+1) (Task.enter n :: rest) marks sorted =
                dfsRun g fuel (deps.map Task.enter ++ Task.leave n :: rest)
                  ((n, Mark.temp) :: marks) sorted := by
              simp only [dfsRun, hmk, hfind]
            have hmono1 : FinalMono marks ((n, Mark.temp) :: marks) :=
              finalMono_cons_temp marks n hmk
            have hnchain : n ∉ chain := by
              intro hc
              have := (htemps n).mpr hc
              rw [hmk] at this
              exact Option.noConfusion this
            have hstack1 : DfsStack g ((n, Mark.temp) :: marks)
                (deps.map Task.enter ++ Task.leave n :: rest) (n :: chain) none := by
              refine .frame (deps.map Task.enter) n rest chain none ?_ hnkey
                (by simp) ?_ ?_
              · intro t ht
                obtain ⟨d, hd, hdt⟩ := List.mem_map.mp ht
                exact ⟨d, hdt.symm, by rw [hdeps]; exact hd⟩
              · intro d hd hdk
                refine .inr (.inl ?_)
                rw [hdeps] at hd
                exact List.mem_map_of_mem _ hd
              · exact DfsStack_mono g marks _ _ _ _ hmono1
                  (DfsStack_shift g marks n rest chain hstack)
            have htemps1 : ∀ x, markOf ((n, Mark.temp) :: marks) x =
                some Mark.temp ↔ x ∈ n :: chain := by
              intro x
              rw [temps_cons_temp, List.mem_cons]
              exact or_congr Iff.rfl (htemps x)
            have hdom1 : ∀ x mk, markOf ((n, Mark.temp) :: marks) x = some mk →
                x ∈ graphKeys g := by
              intro x mk hx
              by_cases hxn : x = n
              · subst hxn; exact hnkey
              · rw [markOf_cons_ne _ _ _ _ hxn] at hx
                exact hdom x mk hx
            have hsm1 : SortedMatches ((n, Mark.temp) :: marks) sorted := by
              intro x
              rw [finals_cons_temp marks n hmk x]
              exact hsm x
            have hinv1 : DfsInv g ((n, Mark.temp) :: marks)
                (deps.map Task.enter ++ Task.leave n :: rest) sorted (n :: chain) :=
              ⟨hstack1, htemps1, hdom1, hsm1, hnds, htopo,
               List.nodup_cons.mpr ⟨hnchain, hcnd⟩⟩
            have hIH := ih _ ((n, Mark.temp) :: marks) sorted (n :: chain) hinv1
            rw [hred]
            refine ⟨hIH.1, ?_⟩
            intro marks' sorted' he
            obtain ⟨osm, ond, otopo, omono, oent, olv⟩ := hIH.2 marks' sorted' he
            refine ⟨osm, ond, otopo, fun x hx => omono x (hmono1 x hx), ?_, ?_⟩
            · intro x hx hxk
              rcases List.mem_cons.mp hx with hx' | hx'
              · have hxn : x = n := Task.enter.inj hx'
                subst hxn
                exact olv x (by simp)
              · exact oent x (by simp [hx']) hxk
            · intro x hx
              rcases List.mem_cons.mp hx with hx' | hx'
              · exact absurd hx' (by simp)
              · exact olv x (by simp [hx'])
      | leave n =>
        generalize hteq : Task.leave n :: rest = tasks0 at hstack
        cases hstack
        case root hE =>
          exfalso
          obtain ⟨d, hd⟩ := hE (Task.leave n)
            (by rw [← hteq]; exact List.mem_cons_self _ _)
          exact Task.noConfusion hd
        case frame E m rest' chain' hE hm hrest habove hcover =>
          cases E with
          | cons t E' =>
            exfalso
            obtain ⟨d, hd, _⟩ := hE t (List.mem_cons_self _ _)
            rw [List.cons_append] at hteq
            obtain ⟨ht2, _⟩ := List.cons.inj hteq
            rw [← ht2] at hd
            exact Task.noConfusion hd
          | nil =>
            rw [List.nil_append] at hteq
            obtain ⟨hm_eq, hrest_eq⟩ := List.cons.inj hteq
            have hmn : n = m := Task.leave.inj hm_eq
            subst hmn
            subst hrest_eq
            have hcov : ∀ d, d ∈ depsOf g n → d ∈ graphKeys g →
                markOf marks d = some Mark.final := by
              intro d hd hdk
              rcases hcover d hd hdk with hc | hc | hc
              · exact hc
              · exact absurd hc (List.not_mem_nil _)
              · exact Option.noConfusion hc
            have hmono2 : FinalMono marks ((n, Mark.final) :: marks) :=
              finalMono_cons_final marks n
            have hntmp : markOf marks n = some Mark.temp :=
              (htemps n).mpr (List.mem_cons_self _ _)
            have hnsorted : n ∉ sorted := by
              intro hns
              have := (hsm n).mp hns
              rw [hntmp] at this
              exact Mark.noConfusion (Option.some.inj this)
            have hnchain' : n ∉ chain' := (List.nodup_cons.mp hcnd).1
            have hred : dfsRun g (fuel+1) (Task.leave n :: rest) marks sorted =
                dfsRun g fuel rest ((n, Mark.final) :: marks) (n :: sorted) := by
              simp only [dfsRun]
            have hstack2 : DfsStack g ((n, Mark.final) :: marks) rest chain' none :=
              DfsStack_close g marks _ rest chain' n hmono2
                (markOf_cons_self _ _ _) hrest
            have htemps2 : ∀ x, markOf ((n, Mark.final) :: marks) x =
                some Mark.temp ↔ x ∈ chain' := by
              intro x
              rw [temps_cons_final]
              constructor
              · rintro ⟨hxn, hxt⟩
                rcases List.mem_cons.mp ((htemps x).mp hxt) with h | h
                · exact absurd h hxn
                · exact h
              · intro hx
                have hxn : x ≠ n := by
                  intro h; subst h; exact hnchain' hx
                exact ⟨hxn, (htemps x).mpr (List.mem_cons_of_mem _ hx)⟩
            have hdom2 : ∀ x mk, markOf ((n, Mark.final) :: marks) x = some mk →
                x ∈ graphKeys g := by
              intro x mk hx
              by_cases hxn : x = n
              · subst hxn; exact hm
              · rw [markOf_cons_ne _ _ _ _ hxn] at hx
                exact hdom x mk hx
            have hsm2 : SortedMatches ((n, Mark.final) :: marks) (n :: sorted) := by
              intro x
              rw [List.mem_cons, finals_cons_final]
              exact or_congr Iff.rfl (hsm x)
            have hnds2 : (n :: sorted).Nodup :=
              List.nodup_cons.mpr ⟨hnsorted, hnds⟩
            have htopo2 : TopoOK g (n :: sorted) := by
              intro a b hedge ha
              rcases List.mem_cons.mp ha with rfl | ha'
              · rw [tailAfter_cons_self]
                exact (hsm b).mpr (hcov b hedge.2.2 hedge.2.1)
              · have han : n ≠ a := by
                  intro h; subst h; exact hnsorted ha'
                rw [tailAfter_cons_ne _ _ _ han]
                exact htopo a b hedge ha'
            have hinv2 : DfsInv g ((n, Mark.final) :: marks) rest (n :: sorted)
                chain' :=
              ⟨hstack2, htemps2, hdom2, hsm2, hnds2, htopo2,
               (List.nodup_cons.mp hcnd).2⟩
            have hIH := ih rest ((n, Mark.final) :: marks) (n :: sorted) chain'
              hinv2
            rw [List.nil_append, hred]
            refine ⟨hIH.1, ?_⟩
            intro marks' sorted' he
            obtain ⟨osm, ond, otopo, omono, oent, olv⟩ := hIH.2 marks' sorted' he
            refine ⟨osm, ond, otopo, fun x hx => omono x (hmono2 x hx), ?_, ?_⟩
            · intro x hx hxk
              rcases List.mem_cons.mp hx with hx' | hx'
              · exact absurd hx' (by simp)
              · exact oent x hx' hxk
            · intro x hx
              rcases List.mem_cons.mp hx with hx' | hx'
              · have hxn : x = n := Task.leave.inj hx'
                subst hxn
                exact omono x (markOf_cons_self _ _ _)
              · exact olv x hx'

end Efa

namespace Efa

theorem pendingWeight_cons_le (g : List (String × List String))
    (marks : List (String × Mark)) (n : String) (mk : Mark) :
    pendingWeight g ((n, mk) :: marks) ≤ pendingWeight g marks := by
  induction g with
  | nil => exact Nat.le_refl _
  | cons p g' ih =>
    simp only [pendingWeight]
    refine Nat.add_le_add ?_ ih
    by_cases hpn : p.1 = n
    · rw [hpn, markOf_cons_self]
      split
      · exact absurd (by assumption) (by simp)
      · exact Nat.zero_le _
    · rw [markOf_cons_ne _ _ _ _ hpn]

theorem pendingWeight_expand (g : List (String × List String)) :
    ∀ (marks : List (String × Mark)) (n : String) (deps : List String),
      markOf marks n = none →
      g.find? (fun p => p.1 = n) = some (n, deps) →
      deps.length + 1 + pendingWeight g ((n, Mark.temp) :: marks) ≤
        pendingWeight g marks := by
  induction g with
  | nil =>
    intro marks n deps _ hfind
    exact Option.noConfusion hfind
  | cons p g' ih =>
    intro marks n deps hmk hfind
    by_cases hpn : p.1 = n
    · rw [List.find?_cons_of_pos _ (by simp [hpn])] at hfind
      have hp : p = (n, deps) := Option.some.inj hfind
      subst hp
      simp [pendingWeight, markOf_cons_self, hmk]
      have htail : pendingWeight g' ((n, Mark.temp) :: marks) ≤
          pendingWeight g' marks := pendingWeight_cons_le g' marks n Mark.temp
      omega
    · rw [List.find?_cons_of_neg _ (by simp [hpn])] at hfind
      have hrec := ih marks n deps hmk hfind
      simp only [pendingWeight]
      by_cases hnone : markOf marks p.1 = none
      · rw [markOf_cons_ne _ _ _ _ hpn, hnone]
        simp only [if_pos rfl]
        omega
      · rw [markOf_cons_ne _ _ _ _ hpn]
        rw [if_neg hnone]
        omega

theorem pendingWeight_empty (g : List (String × List String)) :
    pendingWeight g [] = (g.map (fun p => p.2.length + 1)).sum := by
  induction g with
  | nil => rfl
  | cons p g' ih =>
    simp only [pendingWeight, List.map_cons, List.sum_cons, ih]
    rfl

theorem dfsRun_fuel (g : List (String × List String)) :
    ∀ (fuel : Nat) (tasks : List Task) (marks : List (String × Mark))
      (sorted : List String) (e : String),
      tasks.length + pendingWeight g marks < fuel →
      dfsRun g fuel tasks marks sorted = .error e → e = cycleMsg := by
  intro fuel
  induction fuel with
  | zero =>
    intro tasks marks sorted e hlt
    exact absurd hlt (Nat.not_lt_zero _)
  | succ fuel ih =>
    intro tasks marks sorted e hlt herr
    cases tasks with
    | nil => exact Except.noConfusion herr
    | cons t rest =>
      cases t with
      | enter n =>
        cases hmk : markOf marks n with
        | some mk =>
          cases mk with
          | final =>
            rw [show dfsRun g (fuel+1) (Task.enter n :: rest) marks sorted =
                dfsRun g fuel rest marks sorted from by
              simp only [dfsRun, hmk]] at herr
            refine ih rest marks sorted e ?_ herr
            simp only [List.length_cons] at hlt
            omega
          | temp =>
            rw [show dfsRun g (fuel+1) (Task.enter n :: rest) marks sorted =
                .error cycleMsg from by
              simp only [dfsRun, hmk]; rfl] at herr
            exact (Except.error.inj herr).symm
        | none =>
          cases hfind : g.find? (fun p => p.1 = n) with
          | none =>
            rw [show dfsRun g (fuel+1) (Task.enter n :: rest) marks sorted =
                dfsRun g fuel rest marks sorted from by
              simp only [dfsRun, hmk, hfind]] at herr
            refine ih rest marks sorted e ?_ herr
            simp only [List.length_cons] at hlt
            omega
          | some pr =>
            obtain ⟨n', deps⟩ := pr
            obtain ⟨hn', _, _⟩ := find?_some_info g n n' deps hfind
            rw [hn'] at hfind
            rw [show dfsRun g (fuel+1) (Task.enter n :: rest) marks sorted =
                dfsRun g fuel (deps.map Task.enter ++ Task.leave n :: rest)
                  ((n, Mark.temp) :: marks) sorted from by
              simp only [dfsRun, hmk, hfind]] at herr
            refine ih _ _ sorted e ?_ herr
            have hexp := pendingWeight_expand g marks n deps hmk hfind
            simp only [List.length_append, List.length_map, List.length_cons]
            simp only [List.length_cons] at hlt
            omega
      | leave n =>
        rw [show dfsRun g (fuel+1) (Task.leave n :: rest) marks sorted =
            dfsRun g fuel rest ((n, Mark.final) :: marks) (n :: sorted) from by
          simp only [dfsRun]] at herr
        refine ih rest _ _ e ?_ herr
        have hle := pendingWeight_cons_le g marks n Mark.final
        simp only [List.length_cons] at hlt
        omega

theorem tailAfter_subset (l : List String) (a : String) :
    ∀ x, x ∈ tailAfter l a → x ∈ l := by
  induction l with
  | nil => intro x hx; exact absurd hx (List.not_mem_nil _)
  | cons y l ih =>
    intro x hx
    by_cases hya : y = a
    · subst hya
      rw [tailAfter_cons_self] at hx
      exact List.mem_cons_of_mem _ hx
    · rw [tailAfter_cons_ne _ _ _ hya] at hx
      exact List.mem_cons_of_mem _ (ih x hx)

theorem not_mem_tailAfter_self (l : List String) (a : String) (hnd : l.Nodup) :
    a ∉ tailAfter l a := by
  induction l with
  | nil => exact List.not_mem_nil _
  | cons y l ih =>
    obtain ⟨hy, hl⟩ := List.nodup_cons.mp hnd
    by_cases hya : y = a
    · subst hya
      rw [tailAfter_cons_self]
      exact hy
    · rw [tailAfter_cons_ne _ _ _ hya]
      exact ih hl

theorem tailAfter_trans (l : List String) (hnd : l.Nodup) (a b c : String)
    (hb : b ∈ tailAfter l a) (hc : c ∈ tailAfter l b) : c ∈ tailAfter l a := by
  induction l with
  | nil => exact absurd hb (List.not_mem_nil _)
  | cons y l ih =>
    obtain ⟨hy, hl⟩ := List.nodup_cons.mp hnd
    by_cases hya : y = a
    · subst hya
      rw [tailAfter_cons_self] at hb ⊢
      have hby : y ≠ b := by
        intro h; subst h; exact hy hb
      rw [tailAfter_cons_ne _ _ _ hby] at hc
      exact tailAfter_subset l b c hc
    · rw [tailAfter_cons_ne _ _ _ hya] at hb ⊢
      have hby : y ≠ b := by
        intro h; subst h
        exact hy (tailAfter_subset l a y hb)
      rw [tailAfter_cons_ne _ _ _ hby] at hc
      exact ih hl hb hc

theorem EdgePath_mem_tail (g : List (String × List String)) (l : List String)
    (hnd : l.Nodup) (htopo : TopoOK g l) :
    ∀ (p : List String) (a b : String), EdgePath g a p b → a ∈ l →
      b ∈ tailAfter l a := by
  intro p
  induction p with
  | nil =>
    intro a b hp ha
    exact htopo a b hp ha
  | cons x p ih =>
    intro a b hp ha
    obtain ⟨hax, hrest⟩ := hp
    have hx : x ∈ tailAfter l a := htopo a x hax ha
    have hxl : x ∈ l := tailAfter_subset l a x hx
    have hbx : b ∈ tailAfter l x := ih x b hrest hxl
    exact tailAfter_trans l hnd a x b hx hbx

theorem EdgePath_head_key (g : List (String × List String)) (a : String)
    (p : List String) (b : String) (hp : EdgePath g a p b) :
    a ∈ graphKeys g := by
  cases p with
  | nil => exact hp.1
  | cons x xs => exact hp.1.1

theorem noCycle_of_topo (g : List (String × List String)) (l : List String)
    (hnd : l.Nodup) (htopo : TopoOK g l)
    (hkeys : ∀ n, n ∈ graphKeys g → n ∈ l) : ¬ HasCycle g := by
  rintro ⟨n, p, hp⟩
  have hnl : n ∈ l := hkeys n (EdgePath_head_key g n p n hp)
  have := EdgePath_mem_tail g l hnd htopo p n n hp hnl
  exact not_mem_tailAfter_self l n hnd this

theorem dfsInv_init (g : List (String × List String)) :
    DfsInv g [] ((g.map Prod.fst).map Task.enter) [] [] := by
  refine ⟨.root _ none ?_, ?_, ?_, ?_, List.nodup_nil, ?_, List.nodup_nil⟩
  · intro t ht
    obtain ⟨d, _, hdt⟩ := List.mem_map.mp ht
    exact ⟨d, hdt.symm⟩
  · intro n
    constructor
    · intro h
      exact Option.noConfusion h
    · intro h
      exact absurd h (List.not_mem_nil _)
  · intro n mk h
    exact Option.noConfusion h
  · intro n
    constructor
    · intro h
      exact absurd h (List.not_mem_nil _)
    · intro h
      exact Option.noConfusion h
  · intro a b _ ha
    exact absurd ha (List.not_mem_nil _)

theorem toposort_cycle_iff (g : List (String × List String)) :
    toposort g = .error cycleMsg ↔ HasCycle g := by
  have hfuel : ((g.map Prod.fst).map Task.enter).length + pendingWeight g [] <
      toposortFuel g := by
    rw [pendingWeight_empty]
    simp only [List.length_map, toposortFuel]
    omega
  have hsound := dfsRun_sound g (toposortFuel g)
    ((g.map Prod.fst).map Task.enter) [] [] [] (dfsInv_init g)
  constructor
  · intro h
    rw [toposort] at h
    cases hrun : dfsRun g (toposortFuel g) ((g.map Prod.fst).map Task.enter)
        [] [] with
    | error e =>
      rw [hrun] at h
      have he : e = cycleMsg := Except.error.inj h
      subst he
      exact hsound.1 hrun
    | ok pr =>
      rw [hrun] at h
      exact Except.noConfusion h
  · intro hcyc
    rw [toposort]
    cases hrun : dfsRun g (toposortFuel g) ((g.map Prod.fst).map Task.enter)
        [] [] with
    | error e =>
      have he : e = cycleMsg := dfsRun_fuel g _ _ _ _ e hfuel hrun
      rw [he]
    | ok pr =>
      exfalso
      obtain ⟨marks', sorted'⟩ := pr
      obtain ⟨osm, ond, otopo, _, oent, _⟩ := hsound.2 marks' sorted' hrun
      refine noCycle_of_topo g sorted' ond otopo ?_ hcyc
      intro n hn
      refine (osm n).mpr (oent n ?_ hn)
      exact List.mem_map_of_mem _ hn

end Efa

namespace Efa

theorem rewriteInstrs_error (hashed : List (String × Hash)) :
    ∀ (code : List Instr) (e : String),
      rewriteInstrs hashed code = .error e →
      e = "dyn_name should have already been hashed" := by
  intro code
  induction code with
  | nil =>
    intro e h
    exact Except.noConfusion h
  | cons i rest ih =>
    intro e h
    cases i with
    | loadDyn dynName =>
      rw [rewriteInstrs] at h
      cases hf : (hashed.find? (fun p => p.1 = dynName)).map (·.2) with
      | none =>
        rw [hf] at h
        exact (Except.error.inj h).symm
      | some hv =>
        rw [hf] at h
        cases hr : rewriteInstrs hashed rest with
        | error e2 =>
          rw [hr] at h
          rw [← Except.error.inj h]
          exact ih e2 hr
        | ok rest2 =>
          rw [hr] at h
          exact Except.noConfusion h
    | _ =>
      rw [rewriteInstrs] at h
      · cases hr : rewriteInstrs hashed rest with
        | error e2 =>
          rw [hr] at h
          rw [← Except.error.inj h]
          exact ih e2 hr
        | ok rest2 =>
          rw [hr] at h
          exact Except.noConfusion h
      · intro m hm
        exact Instr.noConfusion hm

theorem resolveWalk_error (objs : List (String × CodeObject)) :
    ∀ (order : List String) (hashed : List (String × Hash)) (e : String),
      resolveWalk objs order hashed = .error e →
      e = "object not present" ∨
      e = "dyn_name should have already been hashed" := by
  intro order
  induction order with
  | nil =>
    intro hashed e h
    exact Except.noConfusion h
  | cons name order ih =>
    intro hashed e h
    cases hf : (objs.find? (fun p => p.1 = name)).map (·.2) with
    | none =>
      simp only [resolveWalk, hf] at h
      exact .inl (Except.error.inj h).symm
    | some obj =>
      cases hr : rewriteInstrs hashed obj.code with
      | error e2 =>
        simp only [resolveWalk, hf, hr] at h
        rw [← Except.error.inj h]
        exact .inr (rewriteInstrs_error hashed obj.code e2 hr)
      | ok newCode =>
        cases hw : resolveWalk objs order
            ((name, ({ obj with code := newCode } : CodeObject).hash) :: hashed) with
        | error e2 =>
          simp only [resolveWalk, hf, hr, hw] at h
          rw [← Except.error.inj h]
          exact ih _ e2 hw
        | ok rest2 =>
          simp only [resolveWalk, hf, hr, hw] at h
          exact Except.noConfusion h

theorem solve_node_mem (co : CodeObject) (n : String) :
    n ∈ solve_node co ↔ Instr.loadDyn n ∈ co.code := by
  rw [solve_node, List.mem_dedup, List.mem_filterMap]
  constructor
  · rintro ⟨i, hi, hmatch⟩
    cases i with
    | loadDyn m =>
      have : m = n := Option.some.inj hmatch
      subst this
      exact hi
    | _ => exact Option.noConfusion hmatch
  · intro h
    exact ⟨Instr.loadDyn n, h, rfl⟩

theorem resolveDynCalls_cycle_iff (objs : List (String × CodeObject)) :
    resolveDynCalls objs = .error cycleMsg ↔ HasCycle (solveGraph objs) := by
  rw [resolveDynCalls]
  cases ht : toposort (solveGraph objs) with
  | error e =>
    constructor
    · intro h
      have he : e = cycleMsg := Except.error.inj h
      subst he
      exact (toposort_cycle_iff _).mp ht
    · intro hcyc
      have : toposort (solveGraph objs) = .error cycleMsg :=
        (toposort_cycle_iff _).mpr hcyc
      rw [ht] at this
      rw [Except.error.inj this]
  | ok order =>
    constructor
    · intro h
      exfalso
      rcases resolveWalk_error objs order.reverse [] cycleMsg h with hc | hc
      · exact absurd hc (by decide)
      · exact absurd hc (by decide)
    · intro hcyc
      exfalso
      have : toposort (solveGraph objs) = .error cycleMsg :=
        (toposort_cycle_iff _).mpr hcyc
      rw [ht] at this
      exact Except.noConfusion this

theorem selfloop_no_ns_cycle :
    ¬ HasCycleNS (solveGraph [("f", selfLoopCo)]) := by
  rintro ⟨n, p, hp⟩
  have hedge : EdgeNS (solveGraph [("f", selfLoopCo)]) n n ∨
      ∃ x, EdgeNS (solveGraph [("f", selfLoopCo)]) n x := by
    cases p with
    | nil => exact .inl hp
    | cons x xs => exact .inr ⟨x, hp.1⟩
  have hkey : ∀ a b, EdgeNS (solveGraph [("f", selfLoopCo)]) a b → False := by
    intro a b hab
    obtain ⟨⟨ha, hb, _⟩, hne⟩ := hab
    have ha' : a = "f" := by
      simpa [solveGraph, graphKeys, selfLoopCo] using ha
    have hb' : b = "f" := by
      simpa [solveGraph, graphKeys, selfLoopCo] using hb
    rw [ha', hb'] at hne
    exact hne rfl
  rcases hedge with h | ⟨x, h⟩
  · exact hkey n n h
  · exact hkey n x h

/-- Claim C5.  Corrected: the resolve pass fails with the cycle error if
and only if the `LoadDyn` dependency graph has a cycle, self-loops
INCLUDED — a function whose code holds a `LoadDyn` of its own name is a
one-edge cycle and does make the pass fail, contrary to the claim's
"excluding self-loops".  The second conjunct confirms the rest of the
claim: the dependency extractor `solve_node` records exactly the
`LoadDyn` targets, so `CallSelf` (like every other instruction) never
contributes an edge and self-recursion through `CallSelf` alone never
causes a cycle error. -/
theorem claim_C5_cycle_error_iff (objs : List (String × CodeObject)) :
    (resolveDynCalls objs = .error cycleMsg ↔ HasCycle (solveGraph objs)) ∧
    (∀ co n, n ∈ solve_node co ↔ Instr.loadDyn n ∈ co.code) :=
  ⟨resolveDynCalls_cycle_iff objs, fun co n => solve_node_mem co n⟩

/-- Claim C5, counterexample to the claim as stated: a function `f`
whose code contains `LoadDyn "f"` makes the resolve pass fail with the
cycle error, yet the dependency graph has no cycle that avoids
self-loop edges — so failure is not equivalent to a cycle in the graph
"excluding self-loops". -/
theorem claim_C5_selfloop_counterexample :
    resolveDynCalls [("f", selfLoopCo)] = .error cycleMsg ∧
    ¬ HasCycleNS (solveGraph [("f", selfLoopCo)]) :=
  ⟨rfl, selfloop_no_ns_cycle⟩

end Efa
